import Mathlib

/-!
# eos-p2p: packet dispatch loop, peer lifecycle loop and peer send layer

A shallow embedding of `p2p/client_package.go`, `p2p/client_peers.go` and
`p2p/peer_send.go`.

* Go pointers and interfaces that may be nil are `Option`s; a nil dereference
  (a Go panic) makes the embedded function return `none`.
* The client's mutable fields are the fields of `Client`; every method takes the
  client and returns the new one.
* Calls on collaborators whose code lives elsewhere (a handler's `Handle`, a
  peer's `Start`, `ClosePeer`, `Wait`, channel sends, ...) are recorded, in
  program order, in the ghost field `Client.trace`. Their results, where the
  caller looks at them, are parameters of the embedded function.
* Logger calls have no effect on the client and are left out, except that the
  pointer reads made to build their arguments are kept.
-/

namespace P2P

/-! ## Errors (`error`, `io.EOF`, `github.com/pkg/errors`) -/

/-- A non-nil Go `error`. `EOF` is `io.EOF`; `wrap` is what `errors.Wrap` and
`errors.Wrapf` build, `withStack` what `errors.WithStack` builds. -/
inductive Error where
  | EOF : Error
  | other (msg : String) : Error
  | wrap (cause : Error) (context : String) : Error
  | withStack (cause : Error) : Error
  deriving DecidableEq, Repr

namespace Error

/-- Root cause of an error: `errors.Cause` unwraps until a non-wrapper. -/
def Cause : Error → Error
  | EOF => EOF
  | other m => other m
  | wrap c _ => Cause c
  | withStack c => Cause c

/-- The context texts attached by the wrappers, outermost first. -/
def contexts : Error → List String
  | EOF => []
  | other _ => []
  | wrap c s => s :: contexts c
  | withStack c => contexts c

end Error

/-- Library `errors.WithStack`: nil stays nil. -/
def errorsWithStack : Option Error → Option Error
  | none => none
  | some e => some (Error.withStack e)

/-- Library `errors.Wrapf` / `errors.Wrap`: nil stays nil. -/
def errorsWrapf (err : Option Error) (context : String) : Option Error :=
  match err with
  | none => none
  | some e => some (Error.wrap e context)

/-! ## Data model -/

/-- A `*Peer` that is not nil: `id` stands for the pointer identity, the other
fields are the ones the three source files read. -/
structure Peer where
  id : Nat
  Address : String
  NodeID : List Nat
  Name : String
  agent : String
  deriving DecidableEq, Repr

/-- The type `PeerCfg`; only `Address` is read by the embedded code. -/
structure PeerCfg where
  Address : String
  deriving DecidableEq, Repr

/-- Ordered-range encoding: `Mode` is the `[4]byte` tag, `Pending` a `uint32`. -/
structure OrderedBlockIDs where
  Mode : List Nat
  Pending : Nat
  deriving DecidableEq, Repr

/-- The type `Signature`. -/
structure Signature where
  Curve : String
  Content : List Nat
  deriving DecidableEq, Repr

/-- The type `HandshakeInfo` read by `SendHandshake`. -/
structure HandshakeInfo where
  ChainID : List Nat
  HeadBlockNum : Nat
  HeadBlockID : List Nat
  HeadBlockTime : Nat
  LastIrreversibleBlockNum : Nat
  LastIrreversibleBlockID : List Nat
  deriving DecidableEq, Repr

/-- The type `HandshakeMessage`, with the fields `SendHandshake` fills in. -/
structure HandshakeMessage where
  NetworkVersion : Nat
  ChainID : List Nat
  NodeID : List Nat
  Key : String
  Time : Nat
  Token : List Nat
  Signature : Signature
  P2PAddress : String
  LastIrreversibleBlockNum : Nat
  LastIrreversibleBlockID : List Nat
  HeadNum : Nat
  HeadID : List Nat
  OS : String
  Agent : String
  Generation : Int
  deriving DecidableEq, Repr

/-- The declared type tag of a protocol message (`P2PMessageType`). -/
inductive P2PMessageType where
  | HandshakeMessageType
  | GoAwayMessageType
  | TimeMessageType
  | NoticeMessageType
  | RequestMessageType
  | SyncRequestMessageType
  deriving DecidableEq, Repr

/-- The protocol messages built by the send layer (a non-nil `Message`). -/
inductive Message where
  | GoAwayMessage (Reason : Nat) (NodeID : List Nat)
  | SyncRequestMessage (StartBlock EndBlock : Nat)
  | RequestMessage (ReqTrx ReqBlocks : OrderedBlockIDs)
  | NoticeMessage (KnownTrx KnownBlocks : OrderedBlockIDs)
  | TimeMessage
  | Handshake (m : HandshakeMessage)
  deriving DecidableEq, Repr

namespace Message

/-- The method `GetType` of each message. -/
def GetType : Message → P2PMessageType
  | GoAwayMessage _ _ => .GoAwayMessageType
  | SyncRequestMessage _ _ => .SyncRequestMessageType
  | RequestMessage _ _ => .RequestMessageType
  | NoticeMessage _ _ => .NoticeMessageType
  | TimeMessage => .TimeMessageType
  | Handshake _ => .HandshakeMessageType

end Message

/-- The wire packet: a message with its declared type (the field `Type`). -/
structure Packet where
  Typ : P2PMessageType
  P2PMessage : Message
  deriving DecidableEq, Repr

/-- A non-nil `Handler`: `Name` is what `Name()` returns (assumed stable),
`id` tells apart two handlers that carry the same name. -/
structure Handler where
  Name : String
  id : Nat
  deriving DecidableEq, Repr

/-- What `newEnvelope(sender, packet)` pairs up for the handlers. -/
structure Envelope where
  Sender : Option Peer
  Packet : Option Packet
  deriving DecidableEq, Repr

/-- Message kinds of the dispatch mailbox. -/
inductive envelopMsgTyp where
  | envelopMsgNil
  | envelopMsgAddHandler
  | envelopMsgDelHandler
  | envelopMsgError
  | envelopMsgPacket
  | envelopMsgStartSync
  | envelopMsgSyncSuccess
  deriving DecidableEq, Repr

/-- Mailbox element of the packet dispatch loop. -/
structure envelopMsg where
  typ : envelopMsgTyp
  Sender : Option Peer
  Packet : Option Packet
  handler : Option Handler
  err : Option Error
  deriving DecidableEq, Repr

/-- Message kinds of the peer lifecycle mailbox. -/
inductive peerMsgTyp where
  | peerMsgNewPeer
  | peerMsgDelPeer
  | peerMsgErrPeer
  | peerSyncFinished
  deriving DecidableEq, Repr

/-- Mailbox element of the peer lifecycle loop. -/
structure peerMsg where
  msgTyp : peerMsgTyp
  peer : Option Peer
  cfg : Option PeerCfg
  err : Option Error
  deriving DecidableEq, Repr

/-- Connection state of a tracked peer. -/
inductive peerStat where
  | peerStatInit
  | peerStatNormal
  | peerStatClosed
  deriving DecidableEq, Repr

/-- The record `peerStatus` kept per address. -/
structure peerStatus where
  peer : Option Peer
  status : peerStat
  cfg : Option PeerCfg
  deriving DecidableEq, Repr

/-- Calls on collaborators, in the order the code makes them. -/
inductive Event where
  | syncHandle (e : Envelope)
  | handle (h : Handler) (e : Envelope)
  | onStartSyncIrreversible (sender : Option Peer)
  | closeAllPeer
  | closePacketChan
  | peerChanSend (m : peerMsg)
  | NewPeer (cfg : PeerCfg)
  | StartPeer (p : Peer)
  | Start (p : Peer)
  | startSyncIrr (p : Peer)
  | ClosePeer (p : Peer)
  | Wait (p : Peer)
  | Sleep (seconds : Nat)
  deriving DecidableEq, Repr

/-- The fields of `Client` the embedded methods read or write. `ps` is the
map `address → *peerStatus` as an association list, `trace` the ghost record
of collaborator calls. -/
structure Client where
  handlers : List Handler
  ps : List (String × peerStatus)
  needSync : Bool
  currentSyncPeer : Option Peer
  trace : List Event
  deriving DecidableEq, Repr

namespace Client

/-- Record one collaborator call. -/
def emit (c : Client) (e : Event) : Client :=
  { c with trace := c.trace ++ [e] }

end Client

/-! ## The peer table -/

/-- Map read `ps[a]`. -/
def psLookup : List (String × peerStatus) → String → Option peerStatus
  | [], _ => none
  | (k, v) :: rest, a => if k = a then some v else psLookup rest a

/-- Map write `ps[a] = v`: overwrite the entry of `a`, or add one. -/
def psInsert : List (String × peerStatus) → String → peerStatus → List (String × peerStatus)
  | [], a, v => [(a, v)]
  | (k, w) :: rest, a, v => if k = a then (k, v) :: rest else (k, w) :: psInsert rest a v

/-- Write `entry.status = s` through the pointer stored under `a`. -/
def psSetStatus : List (String × peerStatus) → String → peerStat → List (String × peerStatus)
  | [], _, _ => []
  | (k, w) :: rest, a, s =>
    if k = a then (k, { w with status := s }) :: rest else (k, w) :: psSetStatus rest a s

/-- Number of entries stored under address `a`. -/
def psCount (ps : List (String × peerStatus)) (a : String) : Nat :=
  ps.countP (fun kv => decide (kv.1 = a))

/-- Whether the entry of `a` exists and has status `Closed`. -/
def psClosed (ps : List (String × peerStatus)) (a : String) : Bool :=
  match psLookup ps a with
  | some e => decide (e.status = peerStat.peerStatClosed)
  | none => false

/-! ## client_package.go -/

/-- Embedding of `newEnvelopMsgWithError`. -/
def newEnvelopMsgWithError (sender : Option Peer) (err : Option Error) : envelopMsg :=
  { Sender := sender, err := err, typ := .envelopMsgError, Packet := none, handler := none }

/-- Embedding of `newEnvelopMsg`. -/
def newEnvelopMsg (sender : Option Peer) (packet : Option Packet) : envelopMsg :=
  { Sender := sender, Packet := packet, typ := .envelopMsgPacket, handler := none, err := none }

/-- Embedding of `newHandlerAddMsg`. -/
def newHandlerAddMsg (h : Option Handler) : envelopMsg :=
  { handler := h, typ := .envelopMsgAddHandler, Sender := none, Packet := none, err := none }

/-- Embedding of `newHandlerDelMsg`. -/
def newHandlerDelMsg (h : Option Handler) : envelopMsg :=
  { handler := h, typ := .envelopMsgDelHandler, Sender := none, Packet := none, err := none }

/-- The scan `for idx, h := range handlers { if h.Name() == handlerName ... }`
shared by add and delete: the index at which the loop body fires, counting
from `idx`, or `none` when the loop runs to its end. -/
def findHandler (handlerName : String) : List Handler → Nat → Option Nat
  | [], _ => none
  | h :: rest, idx => if h.Name = handlerName then some idx else findHandler handlerName rest (idx + 1)

/-- Embedding of `Client.onAddHandlerMsg`. -/
def onAddHandlerMsg (c : Client) (r : envelopMsg) : Option Client :=
  match r.handler with
  | none => none
  | some handler =>
    match findHandler handler.Name c.handlers 0 with
    | some idx => some { c with handlers := c.handlers.set idx handler }
    | none => some { c with handlers := c.handlers ++ [handler] }

/-- The inner loop `for i := idx; i < len(handlers)-1; i++ { handlers[i] = handlers[i+1] }`
of `onDelHandlerMsg`; `fuel` bounds the number of iterations. -/
def shiftLeft : Nat → Nat → List Handler → List Handler
  | 0, _, hs => hs
  | fuel + 1, i, hs =>
    if i < hs.length - 1 then
      match hs[i + 1]? with
      | some next => shiftLeft fuel (i + 1) (hs.set i next)
      | none => hs
    else hs

/-- Embedding of `Client.onDelHandlerMsg`. -/
def onDelHandlerMsg (c : Client) (r : envelopMsg) : Option Client :=
  match r.handler with
  | none => none
  | some handler =>
    match findHandler handler.Name c.handlers 0 with
    | some idx =>
      let shifted := shiftLeft c.handlers.length idx c.handlers
      some { c with handlers := shifted.take (shifted.length - 1) }
    | none => some c

/-- The loop `for _, handle := range handlers { handle.Handle(envelope) }`. -/
def handleAll (envelope : Envelope) : List Handler → Client → Client
  | [], c => c
  | h :: rest, c => handleAll envelope rest (c.emit (.handle h envelope))

/-- Embedding of `Client.onPacketMsg`. -/
def onPacketMsg (c : Client) (r : envelopMsg) : Client :=
  let envelope : Envelope := { Sender := r.Sender, Packet := r.Packet }
  let c1 := c.emit (.syncHandle envelope)
  handleAll envelope c1.handlers c1

/-- Embedding of `Client.onPeerErrorMsg`. -/
def onPeerErrorMsg (c : Client) (r : envelopMsg) : Client :=
  match r.err with
  | none => c
  | some err =>
    if err.Cause ≠ Error.EOF then c
    else c.emit (.peerChanSend { err := some err, peer := r.Sender, msgTyp := .peerMsgErrPeer, cfg := none })

/-- State of `peerLoop`: the client, the local `isStopped`, whether the
mailbox has been closed, and whether the loop has returned. -/
structure LoopState where
  c : Client
  isStopped : Bool
  chanClosed : Bool
  returned : Bool
  deriving DecidableEq, Repr

/-- What one `select` of `peerLoop` observes. -/
inductive LoopInput where
  | recv (r : envelopMsg)
  | recvClosed
  | ctxDone
  deriving DecidableEq, Repr

/-- One iteration of the `for { select { ... } }` of `Client.peerLoop`. -/
def peerLoopStep (s : LoopState) (i : LoopInput) : Option LoopState :=
  if s.returned then some s else
  match i with
  | .recvClosed => some { s with returned := true }
  | .recv r =>
    match r.typ with
    | .envelopMsgAddHandler => (onAddHandlerMsg s.c r).map (fun c => { s with c := c })
    | .envelopMsgDelHandler => (onDelHandlerMsg s.c r).map (fun c => { s with c := c })
    | .envelopMsgStartSync => some { s with c := s.c.emit (.onStartSyncIrreversible r.Sender) }
    | .envelopMsgError =>
      if !s.isStopped then some { s with c := onPeerErrorMsg s.c r } else some s
    | .envelopMsgPacket => some { s with c := onPacketMsg s.c r }
    | _ => some s
  | .ctxDone =>
    if !s.isStopped then
      some { s with isStopped := true, chanClosed := true,
                    c := (s.c.emit .closeAllPeer).emit .closePacketChan }
    else some s

/-- Run `peerLoop` over a sequence of observations. -/
def peerLoopRun : LoopState → List LoopInput → Option LoopState
  | s, [] => some s
  | s, i :: rest =>
    match peerLoopStep s i with
    | none => none
    | some s1 => peerLoopRun s1 rest

/-! ## client_peers.go -/

/-- Modelled from the spec: `Client.startSyncIrr` is not among the sources; the
spec calls it the sync-start procedure that `StartPeer` initiates for the
designated peer, so it is one recorded call and changes no client field. -/
def startSyncIrr (c : Client) (p : Peer) : Client :=
  c.emit (.startSyncIrr p)

/-- The message `StartPeer` puts on the lifecycle mailbox when `Start` fails:
`peerMsg{err: errors.Wrap(err, "connect error"), peer: p, msgTyp: peerMsgErrPeer}`. -/
def connectErrMsg (p : Peer) (err : Error) : peerMsg :=
  { err := errorsWrapf (some err) "connect error", peer := some p,
    msgTyp := .peerMsgErrPeer, cfg := none }

/-- Embedding of `Client.StartPeer`. `startErr` is what `p.Start(ctx)` returns
if it is called. The result is the new client and the returned error. -/
def StartPeer (c : Client) (p : Option Peer) (startErr : Option Error) :
    Option (Client × Option Error) :=
  match p with
  | none => none
  | some p =>
    let c0 := c.emit (.StartPeer p)
    match psLookup c0.ps p.Address with
    | none => some (c0, none)
    | some _ =>
      let c1 := c0.emit (.Start p)
      match startErr with
      | some err =>
        some (c1.emit (.peerChanSend (connectErrMsg p err)), some err)
      | none =>
        let c2 := { c1 with ps := psSetStatus c1.ps p.Address .peerStatNormal }
        if c2.needSync && c2.currentSyncPeer.isNone then
          some ({ (startSyncIrr c2 p) with currentSyncPeer := some p }, none)
        else some (c2, none)

/-- Embedding of `Client.onNewPeer`. `newPeer` is what the constructor
`NewPeer(msg.cfg, c, c.HeadBlockNum(), c.ChainID())` returns if it is called,
`startErr` what `Start` returns if it is called. -/
def onNewPeer (c : Client) (msg : peerMsg) (newPeer : Option Peer × Option Error)
    (startErr : Option Error) : Option Client :=
  match msg.cfg with
  | none => none
  | some cfg =>
    match psLookup c.ps cfg.Address with
    | some _ => some c
    | none =>
      let c1 := c.emit (.NewPeer cfg)
      if newPeer.2.isSome && msg.peer.isNone then none
      else
        let entry : peerStatus := { peer := newPeer.1, status := .peerStatInit, cfg := msg.cfg }
        let c2 := { c1 with ps := psInsert c1.ps cfg.Address entry }
        (StartPeer c2 newPeer.1 startErr).map Prod.fst

/-- Embedding of `Client.onDelPeer`. The methods `ClosePeer` and `Wait` are not
among the sources; they are recorded calls, and a nil receiver is taken to
fault. -/
def onDelPeer (c : Client) (msg : peerMsg) : Option Client :=
  match msg.cfg with
  | none => none
  | some cfg =>
    match psLookup c.ps cfg.Address with
    | none => some c
    | some ps =>
      let c1 := { c with ps := psSetStatus c.ps cfg.Address .peerStatClosed }
      match ps.peer with
      | none => none
      | some p => some ((c1.emit (.ClosePeer p)).emit (.Wait p))

/-- Embedding of `Client.onErrPeer`. -/
def onErrPeer (c : Client) (msg : peerMsg) (startErr : Option Error) : Option Client :=
  match msg.err, msg.peer with
  | none, _ => some c
  | _, none => some c
  | some _, some p =>
    match psLookup c.ps p.Address with
    | none => some c
    | some ps =>
      if ps.status = .peerStatClosed then some c
      else
        match StartPeer c (some p) startErr with
        | none => none
        | some (c1, some _) => some (c1.emit (.Sleep 3))
        | some (c1, none) => some c1

/-- What the environment answers while one lifecycle message is processed. -/
structure Oracle where
  newPeer : Option Peer × Option Error
  startErr : Option Error
  deriving DecidableEq, Repr

/-- The `switch p.msgTyp` of `Client.peerMngLoop`. `onSyncFinished` is not among
the sources and is a parameter. -/
def peerMngDispatch (onSyncFinished : Client → peerMsg → Option Client)
    (c : Client) (p : peerMsg) (o : Oracle) : Option Client :=
  match p.msgTyp with
  | .peerMsgNewPeer => onNewPeer c p o.newPeer o.startErr
  | .peerMsgDelPeer => onDelPeer c p
  | .peerMsgErrPeer => onErrPeer c p o.startErr
  | .peerSyncFinished => onSyncFinished c p

/-- The lifecycle loop over a sequence of received messages (no cancellation). -/
def peerMngRun (onSyncFinished : Client → peerMsg → Option Client) :
    Client → List (peerMsg × Oracle) → Option Client
  | c, [] => some c
  | c, (p, o) :: rest =>
    match peerMngDispatch onSyncFinished c p o with
    | none => none
    | some c1 => peerMngRun onSyncFinished c1 rest

/-- A finite sequence of `StartPeer` calls, each with the answer of `Start`. -/
def startPeers : Client → List (Peer × Option Error) → Option Client
  | c, [] => some c
  | c, (p, r) :: rest =>
    match StartPeer c (some p) r with
    | none => none
    | some (c1, _) => startPeers c1 rest

/-- Embedding of the public `Client.NewPeer`: the message it enqueues. -/
def Client.NewPeerMsg (cfg : Option PeerCfg) : peerMsg :=
  { msgTyp := .peerMsgNewPeer, cfg := cfg, peer := none, err := none }

/-- Embedding of the public `Client.DelPeerByAddress`: the message it enqueues. -/
def Client.DelPeerByAddressMsg (address : String) : peerMsg :=
  { msgTyp := .peerMsgDelPeer, cfg := some { Address := address }, peer := none, err := none }

/-! ## peer_send.go -/

/-- The collaborators of the send layer: the shared binary encoder, the
transport write of a peer, the public-key parser, the printed form of a
message (for `%s`) and `runtime.GOOS`. -/
structure SendEnv where
  encode : Packet → Except Error (List Nat)
  write : Peer → List Nat → Option Error
  newPublicKey : String → Except Error String
  format : Message → String
  GOOS : String

/-- Result of a send: the returned error and the transport writes made. -/
structure SendResult where
  err : Option Error
  writes : List (List Nat)
  deriving DecidableEq, Repr

/-- Embedding of `Peer.WriteP2PMessage`. -/
def WriteP2PMessage (env : SendEnv) (p : Peer) (message : Message) : SendResult :=
  let packet : Packet := { Typ := message.GetType, P2PMessage := message }
  match env.encode packet with
  | .error err =>
    { err := errorsWrapf (some err) ("unable to encode message " ++ env.format message),
      writes := [] }
  | .ok buff =>
    match env.write p buff with
    | some err => { err := errorsWrapf (some err) ("write msg to " ++ p.Address), writes := [buff] }
    | none => { err := none, writes := [buff] }

/-- Embedding of `Peer.SendGoAway`. -/
def SendGoAway (env : SendEnv) (p : Peer) (reason : Nat) : SendResult :=
  let r := WriteP2PMessage env p (.GoAwayMessage reason p.NodeID)
  { r with err := errorsWithStack r.err }

/-- Embedding of `Peer.SendSyncRequest`. -/
def SendSyncRequest (env : SendEnv) (p : Peer) (startBlockNum endBlockNumber : Nat) : SendResult :=
  let r := WriteP2PMessage env p (.SyncRequestMessage startBlockNum endBlockNumber)
  { r with err := errorsWithStack r.err }

/-- The `RequestMessage` built by `Peer.SendRequest`. -/
def requestMessage (startBlockNum endBlockNumber : Nat) : Message :=
  .RequestMessage { Mode := [0, 0, 0, 0], Pending := startBlockNum }
    { Mode := [0, 0, 0, 0], Pending := endBlockNumber }

/-- Embedding of `Peer.SendRequest`. -/
def SendRequest (env : SendEnv) (p : Peer) (startBlockNum endBlockNumber : Nat) : SendResult :=
  let r := WriteP2PMessage env p (requestMessage startBlockNum endBlockNumber)
  { r with err := errorsWithStack r.err }

/-- The `NoticeMessage` built by `Peer.SendNotice`. -/
def noticeMessage (headBlockNum libNum mode : Nat) : Message :=
  .NoticeMessage { Mode := [mode, 0, 0, 0], Pending := headBlockNum }
    { Mode := [mode, 0, 0, 0], Pending := libNum }

/-- Embedding of `Peer.SendNotice`. -/
def SendNotice (env : SendEnv) (p : Peer) (headBlockNum libNum mode : Nat) : SendResult :=
  let r := WriteP2PMessage env p (noticeMessage headBlockNum libNum mode)
  { r with err := errorsWithStack r.err }

/-- Embedding of `Peer.SendTime`. -/
def SendTime (env : SendEnv) (p : Peer) : SendResult :=
  let r := WriteP2PMessage env p .TimeMessage
  { r with err := errorsWithStack r.err }

/-- The `HandshakeMessage` built by `Peer.SendHandshake`. -/
def handshakeMessage (env : SendEnv) (p : Peer) (info : HandshakeInfo) (publicKey : String) :
    HandshakeMessage :=
  { NetworkVersion := 1206
    ChainID := info.ChainID
    NodeID := p.NodeID
    Key := publicKey
    Time := info.HeadBlockTime
    Token := List.replicate 32 0
    Signature := { Curve := "K1", Content := List.replicate 65 0 }
    P2PAddress := p.Name
    LastIrreversibleBlockNum := info.LastIrreversibleBlockNum
    LastIrreversibleBlockID := info.LastIrreversibleBlockID
    HeadNum := info.HeadBlockNum
    HeadID := info.HeadBlockID
    OS := env.GOOS
    Agent := p.agent
    Generation := 1 }

/-- Embedding of `Peer.SendHandshake`. The local `err` assigned after a failed
write is never read again; the function ends in `return nil`. -/
def SendHandshake (env : SendEnv) (p : Peer) (info : HandshakeInfo) : SendResult :=
  match env.newPublicKey "EOS1111111111111111111111111111111114T1Anm" with
  | .error err =>
    { err := errorsWrapf (some err)
        ("sending handshake to " ++ p.Address ++ ": create public key"),
      writes := [] }
  | .ok publicKey =>
    let r := WriteP2PMessage env p (.Handshake (handshakeMessage env p info publicKey))
    let err := errorsWrapf r.err ("sending handshake to " ++ p.Address)
    (fun (_ : Option Error) => ({ err := none, writes := r.writes } : SendResult)) err

/-- The peers for which the sync-start procedure was invoked, in call order. -/
def syncStarts : List Event → List Peer
  | [] => []
  | Event.startSyncIrr p :: rest => p :: syncStarts rest
  | _ :: rest => syncStarts rest

/-- The peer of the first `StartPeer` call of the sequence whose `Start` succeeds. -/
def firstSuccess : List (Peer × Option Error) → Option Peer
  | [] => none
  | (p, none) :: _ => some p
  | (_, some _) :: rest => firstSuccess rest

/-- The constructed peer, if any, carries the address of the configuration it
was constructed from. -/
def ctorKeepsAddress (m : peerMsg) (o : Oracle) : Bool :=
  match o.newPeer.1, m.cfg with
  | some p, some cfg => decide (p.Address = cfg.Address)
  | _, _ => true

/-- A registry request as the dispatch loop receives it: `true` is the
AddHandler message of `RegisterHandler`, `false` the DelHandler message. -/
def handlerInput (op : Bool × Handler) : LoopInput :=
  if op.1 then .recv (newHandlerAddMsg (some op.2)) else .recv (newHandlerDelMsg (some op.2))

/-- A client with nothing registered, nothing tracked and an empty trace. -/
def Client.empty (needSync : Bool) : Client :=
  { handlers := [], ps := [], needSync := needSync, currentSyncPeer := none, trace := [] }

/-- The state in which `peerLoop` starts. -/
def LoopState.init (c : Client) : LoopState :=
  { c := c, isStopped := false, chanClosed := false, returned := false }

/-- A peer with the given pointer identity and address, for concrete runs. -/
def mkPeer (id : Nat) (address : String) : Peer :=
  { id := id, Address := address, NodeID := [], Name := address, agent := "eos-p2p" }

/-- The table entry `onNewPeer` stores for peer `p`, in state `st`. -/
def mkEntry (p : Peer) (st : peerStat) : String × peerStatus :=
  (p.Address, { peer := some p, status := st, cfg := some { Address := p.Address } })

/-- A client that needs sync, has no sync peer yet and tracks three peers at the
addresses a:1, b:2 and c:3, none of them connected. -/
def threePeers : Client :=
  { Client.empty true with
    ps := [mkEntry (mkPeer 1 "a:1") .peerStatInit, mkEntry (mkPeer 2 "b:2") .peerStatInit,
           mkEntry (mkPeer 3 "c:3") .peerStatInit] }

/-- Like `threePeers`, with the peer at b:2 deleted (`Closed`). -/
def closedPeerB : Client :=
  { Client.empty true with
    ps := [mkEntry (mkPeer 1 "a:1") .peerStatInit, mkEntry (mkPeer 2 "b:2") .peerStatClosed,
           mkEntry (mkPeer 3 "c:3") .peerStatInit] }

/-- A send environment whose encoder works and whose transport write fails. -/
def brokenPipeEnv : SendEnv :=
  { encode := fun _ => .ok [1, 2, 3]
    write := fun _ _ => some (Error.other "broken pipe")
    newPublicKey := fun k => .ok k
    format := fun _ => "msg"
    GOOS := "linux" }

/-- A send environment in which encoding and writing both work. -/
def healthyEnv : SendEnv :=
  { encode := fun _ => .ok [1, 2, 3]
    write := fun _ _ => none
    newPublicKey := fun k => .ok k
    format := fun _ => "msg"
    GOOS := "linux" }

/-- A `HandshakeInfo` with all fields zero. -/
def zeroInfo : HandshakeInfo :=
  { ChainID := [], HeadBlockNum := 0, HeadBlockID := [], HeadBlockTime := 0,
    LastIrreversibleBlockNum := 0, LastIrreversibleBlockID := [] }

/-- A send environment whose encoder fails. -/
def brokenEncoderEnv : SendEnv :=
  { encode := fun _ => .error (Error.other "short buffer")
    write := fun _ _ => none
    newPublicKey := fun k => .ok k
    format := fun _ => "msg"
    GOOS := "linux" }

/-- The context text a wrapper put on the outside of an error, if it is one
built by `errors.Wrap` or `errors.Wrapf`. -/
def Error.outerContext : Error → Option String
  | Error.wrap _ s => some s
  | _ => none

/-- Whether the text `sub` occurs inside the text `s`. -/
def occursIn (sub s : String) : Bool :=
  s.data.tails.any (fun t => sub.data.isPrefixOf t)

/-- A returned error identifies the peer when it is a wrapped error whose context
text contains the peer address. -/
def identifiesPeer (err : Option Error) (p : Peer) : Bool :=
  match err with
  | some e =>
    match e.outerContext with
    | some s => occursIn p.Address s
    | none => false
  | none => false

/-- The ErrPeer event `onPeerErrorMsg` forwards for the message `r`. -/
def forwardedErrPeer (r : envelopMsg) : peerMsg :=
  { err := r.err, peer := r.Sender, msgTyp := .peerMsgErrPeer, cfg := none }

/-- The messages put on the peer lifecycle mailbox, in order. -/
def peerChanSends : List Event → List peerMsg
  | [] => []
  | Event.peerChanSend m :: rest => m :: peerChanSends rest
  | _ :: rest => peerChanSends rest

/-- Events that are neither a send on the lifecycle mailbox nor part of the
shutdown of the dispatch loop. -/
def Event.quiet : Event → Bool
  | Event.peerChanSend _ => false
  | Event.closeAllPeer => false
  | Event.closePacketChan => false
  | _ => true

/-- How often `closeAllPeer` was called. -/
def closeAllCount (t : List Event) : Nat :=
  t.countP (fun e => decide (e = Event.closeAllPeer))

/-- How often the dispatch mailbox was closed. -/
def closeChanCount (t : List Event) : Nat :=
  t.countP (fun e => decide (e = Event.closePacketChan))

/-- An EOF error message from the peer at a:1, as the read path reports it. -/
def eofFromA : envelopMsg :=
  newEnvelopMsgWithError (some (mkPeer 1 "a:1")) (some (Error.wrap Error.EOF "read"))

end P2P

namespace P2P

/-! ## Handler registry: lemmas on the scan and the shift loop -/

theorem findHandler_none_iff (n : String) (hs : List Handler) (k : Nat) :
    findHandler n hs k = none ↔ ∀ y ∈ hs, y.Name ≠ n := by
  induction hs generalizing k with
  | nil => simp [findHandler]
  | cons a rest ih =>
    by_cases ha : a.Name = n
    · simp [findHandler, ha]
    · simp [findHandler, ha, ih]

theorem findHandler_some_split (n : String) (hs : List Handler) (k idx : Nat)
    (hf : findHandler n hs k = some idx) :
    ∃ pre x post, hs = pre ++ x :: post ∧ x.Name = n ∧ (∀ y ∈ pre, y.Name ≠ n) ∧
      idx = k + pre.length := by
  induction hs generalizing k with
  | nil => simp [findHandler] at hf
  | cons a rest ih =>
    by_cases ha : a.Name = n
    · simp [findHandler, ha] at hf
      exact ⟨[], a, rest, by simp, ha, by simp, by simp [hf]⟩
    · simp [findHandler, ha] at hf
      obtain ⟨pre, x, post, h1, h2, h3, h4⟩ := ih (k + 1) hf
      refine ⟨a :: pre, x, post, by simp [h1], h2, ?_, by simp [h4]; omega⟩
      intro y hy
      rcases List.mem_cons.mp hy with rfl | hy
      · exact ha
      · exact h3 y hy

theorem findHandler_append_hit (n : String) (pre post : List Handler) (x : Handler) (k : Nat)
    (hx : x.Name = n) (hpre : ∀ y ∈ pre, y.Name ≠ n) :
    findHandler n (pre ++ x :: post) k = some (k + pre.length) := by
  induction pre generalizing k with
  | nil => simp [findHandler, hx]
  | cons a rest ih =>
    have ha : a.Name ≠ n := hpre a (by simp)
    have hrest : ∀ y ∈ rest, y.Name ≠ n := fun y hy => hpre y (by simp [hy])
    simp [findHandler, ha, ih (k + 1) hrest]
    omega

theorem set_at_split (pre post : List Handler) (x h : Handler) :
    (pre ++ x :: post).set pre.length h = pre ++ h :: post := by
  induction pre with
  | nil => simp
  | cons a rest ih => simp [ih]

theorem shiftLeft_split (post : List Handler) :
    ∀ (pre : List Handler) (x : Handler) (fuel : Nat), post.length ≤ fuel →
      ∃ z, shiftLeft fuel pre.length (pre ++ x :: post) = pre ++ post ++ [z] := by
  induction post with
  | nil =>
    intro pre x fuel _
    refine ⟨x, ?_⟩
    cases fuel with
    | zero => simp [shiftLeft]
    | succ f => simp [shiftLeft]
  | cons y post ih =>
    intro pre x fuel hfuel
    cases fuel with
    | zero => simp at hfuel
    | succ f =>
      have hf : post.length ≤ f := by simpa using hfuel
      obtain ⟨z, hz⟩ := ih (pre ++ [y]) y f hf
      refine ⟨z, ?_⟩
      have hlt : pre.length < (pre ++ x :: y :: post).length - 1 := by simp
      have hget : (pre ++ x :: y :: post)[pre.length + 1]? = some y := by
        rw [List.getElem?_append_right (by omega)]
        simp
      have hset : (pre ++ x :: y :: post).set pre.length y = (pre ++ [y]) ++ y :: post := by
        rw [set_at_split]; simp
      have hlen : (pre ++ [y]).length = pre.length + 1 := by simp
      rw [shiftLeft, if_pos hlt, hget]
      simp only []
      rw [hset, ← hlen, hz]
      simp

theorem onDelHandlerMsg_split (c : Client) (h x : Handler) (pre post : List Handler)
    (hsplit : c.handlers = pre ++ x :: post) (hx : x.Name = h.Name)
    (hpre : ∀ y ∈ pre, y.Name ≠ h.Name) :
    onDelHandlerMsg c (newHandlerDelMsg (some h)) = some { c with handlers := pre ++ post } := by
  have hfind := findHandler_append_hit h.Name pre post x 0 hx hpre
  obtain ⟨z, hz⟩ := shiftLeft_split post pre x (pre ++ x :: post).length (by simp; omega)
  have htake : (pre ++ post ++ [z]).take (pre ++ post).length = pre ++ post :=
    List.take_left _ _
  simp only [onDelHandlerMsg, newHandlerDelMsg, hsplit, hfind, Nat.zero_add, hz]
  simp only [List.length_append, List.length_singleton, Nat.add_sub_cancel]
  rw [← List.length_append, htake]

theorem onAddHandlerMsg_split (c : Client) (h x : Handler) (pre post : List Handler)
    (hsplit : c.handlers = pre ++ x :: post) (hx : x.Name = h.Name)
    (hpre : ∀ y ∈ pre, y.Name ≠ h.Name) :
    onAddHandlerMsg c (newHandlerAddMsg (some h)) = some { c with handlers := pre ++ h :: post } := by
  have hfind := findHandler_append_hit h.Name pre post x 0 hx hpre
  simp only [onAddHandlerMsg, newHandlerAddMsg, hsplit, hfind, Nat.zero_add, set_at_split]

theorem onAddHandlerMsg_fresh (c : Client) (h : Handler)
    (hno : ∀ y ∈ c.handlers, y.Name ≠ h.Name) :
    onAddHandlerMsg c (newHandlerAddMsg (some h)) = some { c with handlers := c.handlers ++ [h] } := by
  have hfind := (findHandler_none_iff h.Name c.handlers 0).mpr hno
  simp only [onAddHandlerMsg, newHandlerAddMsg, hfind]

theorem exists_first_named (n : String) (hs : List Handler) (hex : ∃ x ∈ hs, x.Name = n) :
    ∃ pre x post, hs = pre ++ x :: post ∧ x.Name = n ∧ (∀ y ∈ pre, y.Name ≠ n) := by
  cases hf : findHandler n hs 0 with
  | none =>
    obtain ⟨x, hx, hn⟩ := hex
    exact absurd hn ((findHandler_none_iff n hs 0).mp hf x hx)
  | some idx =>
    obtain ⟨pre, x, post, h1, h2, h3, _⟩ := findHandler_some_split n hs 0 idx hf
    exact ⟨pre, x, post, h1, h2, h3⟩

theorem names_nodup_add (c c1 : Client) (h : Handler)
    (hinv : (c.handlers.map Handler.Name).Nodup)
    (hrun : onAddHandlerMsg c (newHandlerAddMsg (some h)) = some c1) :
    (c1.handlers.map Handler.Name).Nodup := by
  by_cases hex : ∃ x ∈ c.handlers, x.Name = h.Name
  · obtain ⟨pre, x, post, h1, h2, h3⟩ := exists_first_named h.Name c.handlers hex
    rw [onAddHandlerMsg_split c h x pre post h1 h2 h3] at hrun
    cases hrun
    simpa [h1, h2] using hinv
  · have hno : ∀ y ∈ c.handlers, y.Name ≠ h.Name := fun y hy hn => hex ⟨y, hy, hn⟩
    rw [onAddHandlerMsg_fresh c h hno] at hrun
    cases hrun
    simp only [List.map_append, List.map_cons, List.map_nil]
    refine List.Nodup.append hinv (List.nodup_singleton _) ?_
    simp only [List.disjoint_singleton, List.mem_map, not_exists, not_and]
    exact fun y hy => hno y hy

theorem names_nodup_del (c c1 : Client) (h : Handler)
    (hinv : (c.handlers.map Handler.Name).Nodup)
    (hrun : onDelHandlerMsg c (newHandlerDelMsg (some h)) = some c1) :
    (c1.handlers.map Handler.Name).Nodup := by
  by_cases hex : ∃ x ∈ c.handlers, x.Name = h.Name
  · obtain ⟨pre, x, post, h1, h2, h3⟩ := exists_first_named h.Name c.handlers hex
    rw [onDelHandlerMsg_split c h x pre post h1 h2 h3] at hrun
    cases hrun
    have hsub : (pre ++ post).Sublist (pre ++ x :: post) :=
      List.Sublist.append_left (List.sublist_cons_self x post) pre
    rw [h1] at hinv
    exact List.Nodup.sublist (hsub.map Handler.Name) hinv
  · have hno : ∀ y ∈ c.handlers, y.Name ≠ h.Name := fun y hy hn => hex ⟨y, hy, hn⟩
    have hfind := (findHandler_none_iff h.Name c.handlers 0).mpr hno
    simp only [onDelHandlerMsg, newHandlerDelMsg, hfind] at hrun
    cases hrun
    exact hinv

theorem handleAll_trace (envelope : Envelope) (hs : List Handler) (c : Client) :
    handleAll envelope hs c =
      { c with trace := c.trace ++ hs.map (fun h => Event.handle h envelope) } := by
  induction hs generalizing c with
  | nil => simp [handleAll]
  | cons a rest ih => simp [handleAll, ih, Client.emit]

theorem onPacketMsg_handlers (c : Client) (r : envelopMsg) :
    (onPacketMsg c r).handlers = c.handlers := by
  simp [onPacketMsg, handleAll_trace, Client.emit]

theorem onPeerErrorMsg_handlers (c : Client) (r : envelopMsg) :
    (onPeerErrorMsg c r).handlers = c.handlers := by
  unfold onPeerErrorMsg
  cases r.err with
  | none => rfl
  | some e =>
    by_cases hc : e.Cause = Error.EOF <;> simp [hc, Client.emit]

theorem peerLoopStep_names_nodup (s s1 : LoopState) (i : LoopInput)
    (hinv : (s.c.handlers.map Handler.Name).Nodup)
    (hstep : peerLoopStep s i = some s1) :
    (s1.c.handlers.map Handler.Name).Nodup := by
  unfold peerLoopStep at hstep
  by_cases hret : s.returned = true
  · simp [hret] at hstep; subst hstep; exact hinv
  · simp only [hret, Bool.false_eq_true, if_false] at hstep
    cases i with
    | recvClosed => simp at hstep; subst hstep; exact hinv
    | ctxDone =>
      by_cases hs : s.isStopped = true
      · simp [hs] at hstep; subst hstep; exact hinv
      · simp [hs] at hstep; subst hstep; simpa [Client.emit] using hinv
    | recv r =>
      rcases r with ⟨typ, sender, packet, handler, err⟩
      cases typ with
      | envelopMsgAddHandler =>
        simp only [Option.map_eq_some'] at hstep
        obtain ⟨c1, hc1, rfl⟩ := hstep
        cases handler with
        | none => simp [onAddHandlerMsg] at hc1
        | some h => exact names_nodup_add s.c c1 h hinv hc1
      | envelopMsgDelHandler =>
        simp only [Option.map_eq_some'] at hstep
        obtain ⟨c1, hc1, rfl⟩ := hstep
        cases handler with
        | none => simp [onDelHandlerMsg] at hc1
        | some h => exact names_nodup_del s.c c1 h hinv hc1
      | envelopMsgStartSync =>
        simp at hstep; subst hstep; simpa [Client.emit] using hinv
      | envelopMsgError =>
        by_cases hs : s.isStopped = true
        · simp [hs] at hstep; subst hstep; exact hinv
        · simp [hs] at hstep; subst hstep
          simpa [onPeerErrorMsg_handlers] using hinv
      | envelopMsgPacket =>
        simp at hstep; subst hstep
        simpa [onPacketMsg_handlers] using hinv
      | envelopMsgNil => simp at hstep; subst hstep; exact hinv
      | envelopMsgSyncSuccess => simp at hstep; subst hstep; exact hinv

theorem peerLoopRun_names_nodup (inputs : List LoopInput) :
    ∀ (s s1 : LoopState), (s.c.handlers.map Handler.Name).Nodup →
      peerLoopRun s inputs = some s1 → (s1.c.handlers.map Handler.Name).Nodup := by
  induction inputs with
  | nil =>
    intro s s1 hinv hrun
    simp [peerLoopRun] at hrun; subst hrun; exact hinv
  | cons i rest ih =>
    intro s s1 hinv hrun
    simp only [peerLoopRun] at hrun
    cases hstep : peerLoopStep s i with
    | none => simp [hstep] at hrun
    | some s2 =>
      simp only [hstep] at hrun
      exact ih s2 s1 (peerLoopStep_names_nodup s s2 i hinv hstep) hrun

theorem onAddHandlerMsg_isSome (c : Client) (h : Handler) :
    ∃ c1, onAddHandlerMsg c (newHandlerAddMsg (some h)) = some c1 := by
  simp only [onAddHandlerMsg, newHandlerAddMsg]
  cases findHandler h.Name c.handlers 0 <;> simp

theorem onDelHandlerMsg_isSome (c : Client) (h : Handler) :
    ∃ c1, onDelHandlerMsg c (newHandlerDelMsg (some h)) = some c1 := by
  simp only [onDelHandlerMsg, newHandlerDelMsg]
  cases findHandler h.Name c.handlers 0 <;> simp

theorem handlerInput_step (s : LoopState) (op : Bool × Handler) (hret : s.returned = false) :
    ∃ s1, peerLoopStep s (handlerInput op) = some s1 ∧ s1.returned = false := by
  rcases op with ⟨b, h⟩
  cases b with
  | true =>
    obtain ⟨c1, hc1⟩ := onAddHandlerMsg_isSome s.c h
    exact ⟨{ s with c := c1 }, by simp [peerLoopStep, handlerInput, hret, newHandlerAddMsg] at *; simp [hc1], hret⟩
  | false =>
    obtain ⟨c1, hc1⟩ := onDelHandlerMsg_isSome s.c h
    exact ⟨{ s with c := c1 }, by simp [peerLoopStep, handlerInput, hret, newHandlerDelMsg] at *; simp [hc1], hret⟩

theorem handlerInput_run (ops : List (Bool × Handler)) :
    ∀ s : LoopState, s.returned = false →
      ∃ s1, peerLoopRun s (ops.map handlerInput) = some s1 := by
  induction ops with
  | nil => intro s _; exact ⟨s, rfl⟩
  | cons op rest ih =>
    intro s hret
    obtain ⟨s2, h2, hret2⟩ := handlerInput_step s op hret
    obtain ⟨s1, h1⟩ := ih s2 hret2
    exact ⟨s1, by simp [peerLoopRun, h2, h1]⟩

/-! ## Claims on the handler registry and on dispatch -/

/-- C1: `onAddHandlerMsg` with a handler `h` named N replaces, at its position, the
first handler named N when there is one (every other position unchanged, same
length) and appends `h` otherwise; registering `h` on a registry without N and
then a second handler `h2` named N leaves exactly one handler named N, at the
position `h` occupied. -/
theorem onAddHandlerMsg_replace_or_append (c : Client) (h : Handler) :
    ((∃ x ∈ c.handlers, x.Name = h.Name) →
      ∃ pre x post, c.handlers = pre ++ x :: post ∧ x.Name = h.Name ∧
        (∀ y ∈ pre, y.Name ≠ h.Name) ∧
        onAddHandlerMsg c (newHandlerAddMsg (some h)) =
          some { c with handlers := pre ++ h :: post } ∧
        (pre ++ h :: post).length = c.handlers.length) ∧
    ((∀ x ∈ c.handlers, x.Name ≠ h.Name) →
      onAddHandlerMsg c (newHandlerAddMsg (some h)) =
        some { c with handlers := c.handlers ++ [h] }) ∧
    (∀ h2 : Handler, h2.Name = h.Name → (∀ x ∈ c.handlers, x.Name ≠ h.Name) →
      ∃ c1 c2, onAddHandlerMsg c (newHandlerAddMsg (some h)) = some c1 ∧
        onAddHandlerMsg c1 (newHandlerAddMsg (some h2)) = some c2 ∧
        c1.handlers[c.handlers.length]? = some h ∧
        c2.handlers = c.handlers ++ [h2] ∧
        c2.handlers[c.handlers.length]? = some h2 ∧
        c2.handlers.countP (fun y => decide (y.Name = h.Name)) = 1) := by
  refine ⟨?_, ?_, ?_⟩
  · intro hex
    obtain ⟨pre, x, post, h1, h2, h3⟩ := exists_first_named h.Name c.handlers hex
    exact ⟨pre, x, post, h1, h2, h3, onAddHandlerMsg_split c h x pre post h1 h2 h3,
      by simp [h1]⟩
  · exact onAddHandlerMsg_fresh c h
  · intro h2 hname hno
    refine ⟨{ c with handlers := c.handlers ++ [h] }, { c with handlers := c.handlers ++ [h2] },
      onAddHandlerMsg_fresh c h hno, ?_, by simp, rfl, by simp, ?_⟩
    · exact onAddHandlerMsg_split { c with handlers := c.handlers ++ [h] } h2 h c.handlers []
        rfl hname.symm (fun y hy => by rw [hname]; exact hno y hy)
    · have hzero : c.handlers.countP (fun y => decide (y.Name = h.Name)) = 0 := by
        rw [List.countP_eq_zero]
        intro y hy
        simpa using hno y hy
      simp [List.countP_append, hzero, hname]

/-- Witness for C1 on the registry [A, B] with a second handler named A, and on
the registry [B] with two handlers named A registered in turn. -/
theorem onAddHandlerMsg_replace_or_append_witness :
    onAddHandlerMsg { Client.empty true with handlers := [⟨"A", 1⟩, ⟨"B", 2⟩] }
        (newHandlerAddMsg (some ⟨"A", 3⟩)) =
      some { Client.empty true with handlers := [⟨"A", 3⟩, ⟨"B", 2⟩] } ∧
    ∃ c1 c2, onAddHandlerMsg { Client.empty true with handlers := [⟨"B", 2⟩] }
        (newHandlerAddMsg (some ⟨"A", 1⟩)) = some c1 ∧
      onAddHandlerMsg c1 (newHandlerAddMsg (some ⟨"A", 3⟩)) = some c2 ∧
      c1.handlers[1]? = some ⟨"A", 1⟩ ∧
      c2.handlers = [⟨"B", 2⟩, ⟨"A", 3⟩] ∧
      c2.handlers[1]? = some ⟨"A", 3⟩ ∧
      c2.handlers.countP (fun y => decide (y.Name = "A")) = 1 :=
  ⟨by decide,
   (onAddHandlerMsg_replace_or_append { Client.empty true with handlers := [⟨"B", 2⟩] }
      ⟨"A", 1⟩).2.2 ⟨"A", 3⟩ rfl (by decide)⟩

/-- C2: on a registry that contains a handler named N, `onDelHandlerMsg` with a
handler named N yields the registry with the first handler named N removed: the
length drops by one and the remaining handlers keep their relative order. -/
theorem onDelHandlerMsg_removes_first (c : Client) (h : Handler)
    (hex : ∃ x ∈ c.handlers, x.Name = h.Name) :
    ∃ pre x post, c.handlers = pre ++ x :: post ∧ x.Name = h.Name ∧
      (∀ y ∈ pre, y.Name ≠ h.Name) ∧
      onDelHandlerMsg c (newHandlerDelMsg (some h)) = some { c with handlers := pre ++ post } ∧
      (pre ++ post).length + 1 = c.handlers.length ∧
      (pre ++ post).Sublist c.handlers := by
  obtain ⟨pre, x, post, h1, h2, h3⟩ := exists_first_named h.Name c.handlers hex
  refine ⟨pre, x, post, h1, h2, h3, onDelHandlerMsg_split c h x pre post h1 h2 h3,
    by simp [h1]; omega, ?_⟩
  rw [h1]
  exact List.Sublist.append_left (List.sublist_cons_self x post) pre

/-- Witness for C2: deleting B from the registry [A, B, C] gives [A, C]. -/
theorem onDelHandlerMsg_removes_first_witness :
    onDelHandlerMsg { Client.empty true with handlers := [⟨"A", 1⟩, ⟨"B", 2⟩, ⟨"C", 3⟩] }
        (newHandlerDelMsg (some ⟨"B", 9⟩)) =
      some { Client.empty true with handlers := [⟨"A", 1⟩, ⟨"C", 3⟩] } ∧
    ∃ pre x post, ([⟨"A", 1⟩, ⟨"B", 2⟩, ⟨"C", 3⟩] : List Handler) = pre ++ x :: post ∧
      x.Name = "B" ∧ (∀ y ∈ pre, y.Name ≠ "B") ∧
      onDelHandlerMsg { Client.empty true with handlers := [⟨"A", 1⟩, ⟨"B", 2⟩, ⟨"C", 3⟩] }
        (newHandlerDelMsg (some ⟨"B", 9⟩)) =
        some { Client.empty true with handlers := pre ++ post } ∧
      (pre ++ post).length + 1 = 3 ∧
      (pre ++ post).Sublist [⟨"A", 1⟩, ⟨"B", 2⟩, ⟨"C", 3⟩] :=
  ⟨by decide,
   onDelHandlerMsg_removes_first
     { Client.empty true with handlers := [⟨"A", 1⟩, ⟨"B", 2⟩, ⟨"C", 3⟩] } ⟨"B", 9⟩
     ⟨⟨"B", 2⟩, by decide, rfl⟩⟩

/-- C3: deleting a handler whose name occurs nowhere in the registry returns
normally and leaves the client, hence the registry, exactly as it was. -/
theorem onDelHandlerMsg_unknown_noop (c : Client) (h : Handler)
    (hno : ∀ x ∈ c.handlers, x.Name ≠ h.Name) :
    onDelHandlerMsg c (newHandlerDelMsg (some h)) = some c := by
  have hfind := (findHandler_none_iff h.Name c.handlers 0).mpr hno
  simp only [onDelHandlerMsg, newHandlerDelMsg, hfind]

/-- Witness for C3: deleting Z from the registry [A, B]. -/
theorem onDelHandlerMsg_unknown_noop_witness :
    (∀ x ∈ ([⟨"A", 1⟩, ⟨"B", 2⟩] : List Handler), x.Name ≠ "Z") ∧
    onDelHandlerMsg { Client.empty false with handlers := [⟨"A", 1⟩, ⟨"B", 2⟩] }
        (newHandlerDelMsg (some ⟨"Z", 5⟩)) =
      some { Client.empty false with handlers := [⟨"A", 1⟩, ⟨"B", 2⟩] } :=
  ⟨by decide,
   onDelHandlerMsg_unknown_noop { Client.empty false with handlers := [⟨"A", 1⟩, ⟨"B", 2⟩] }
     ⟨"Z", 5⟩ (by decide)⟩

/-- C4: pairwise distinct names are preserved by `onAddHandlerMsg` and by
`onDelHandlerMsg` (both return), and hold in every state the dispatch loop reaches
from the empty registry through any finite sequence of AddHandler and DelHandler
messages, which it always processes to the end. -/
theorem registry_names_distinct :
    (∀ (c : Client) (h : Handler), (c.handlers.map Handler.Name).Nodup →
      ∃ c1, onAddHandlerMsg c (newHandlerAddMsg (some h)) = some c1 ∧
        (c1.handlers.map Handler.Name).Nodup) ∧
    (∀ (c : Client) (h : Handler), (c.handlers.map Handler.Name).Nodup →
      ∃ c1, onDelHandlerMsg c (newHandlerDelMsg (some h)) = some c1 ∧
        (c1.handlers.map Handler.Name).Nodup) ∧
    (∀ (needSync : Bool) (ops : List (Bool × Handler)),
      ∃ s1, peerLoopRun (LoopState.init (Client.empty needSync)) (ops.map handlerInput) = some s1 ∧
        (s1.c.handlers.map Handler.Name).Nodup) := by
  refine ⟨?_, ?_, ?_⟩
  · intro c h hinv
    obtain ⟨c1, hc1⟩ := onAddHandlerMsg_isSome c h
    exact ⟨c1, hc1, names_nodup_add c c1 h hinv hc1⟩
  · intro c h hinv
    obtain ⟨c1, hc1⟩ := onDelHandlerMsg_isSome c h
    exact ⟨c1, hc1, names_nodup_del c c1 h hinv hc1⟩
  · intro needSync ops
    obtain ⟨s1, hs1⟩ := handlerInput_run ops (LoopState.init (Client.empty needSync)) rfl
    exact ⟨s1, hs1, peerLoopRun_names_nodup _ _ s1 (by simp [LoopState.init, Client.empty]) hs1⟩

/-- Witness for C4: add A, add B, add A again, delete B, starting from nothing. -/
theorem registry_names_distinct_witness :
    peerLoopRun (LoopState.init (Client.empty true))
        ([(true, ⟨"A", 1⟩), (true, ⟨"B", 2⟩), (true, ⟨"A", 3⟩), (false, ⟨"B", 4⟩)].map
          handlerInput) =
      some (LoopState.init { Client.empty true with handlers := [⟨"A", 3⟩] }) ∧
    ∃ s1, peerLoopRun (LoopState.init (Client.empty true))
        ([(true, ⟨"A", 1⟩), (true, ⟨"B", 2⟩), (true, ⟨"A", 3⟩), (false, ⟨"B", 4⟩)].map
          handlerInput) = some s1 ∧
      (s1.c.handlers.map Handler.Name).Nodup :=
  ⟨by decide,
   registry_names_distinct.2.2 true
     [(true, ⟨"A", 1⟩), (true, ⟨"B", 2⟩), (true, ⟨"A", 3⟩), (false, ⟨"B", 4⟩)]⟩

/-- C5: `onPacketMsg` on a registry [h_0, ..., h_{n-1}] makes exactly n+1 `Handle`
calls, all with the envelope of the message's sender and packet: the sync
collaborator first, then h_0, ..., h_{n-1} in registry order; nothing else of the
client changes, the registry in particular. -/
theorem onPacketMsg_dispatch_order (c : Client) (r : envelopMsg) :
    onPacketMsg c r =
      { c with trace := c.trace ++
          Event.syncHandle { Sender := r.Sender, Packet := r.Packet } ::
            c.handlers.map (fun h => Event.handle h { Sender := r.Sender, Packet := r.Packet }) } ∧
    (onPacketMsg c r).handlers = c.handlers ∧
    (onPacketMsg c r).trace.length = c.trace.length + (c.handlers.length + 1) := by
  have hmain : onPacketMsg c r =
      { c with trace := c.trace ++
          Event.syncHandle { Sender := r.Sender, Packet := r.Packet } ::
            c.handlers.map (fun h => Event.handle h { Sender := r.Sender, Packet := r.Packet }) } := by
    simp [onPacketMsg, handleAll_trace, Client.emit]
  refine ⟨hmain, onPacketMsg_handlers c r, ?_⟩
  rw [hmain]
  simp

/-! ## Peer table lemmas -/

theorem psLookup_setStatus (ps : List (String × peerStatus)) (a b : String) (st : peerStat) :
    psLookup (psSetStatus ps a st) b =
      if a = b then (psLookup ps b).map (fun e => { e with status := st }) else psLookup ps b := by
  induction ps with
  | nil => simp [psLookup, psSetStatus]
  | cons kv rest ih =>
    rcases kv with ⟨k, w⟩
    by_cases hka : k = a
    · by_cases hab : a = b
      · subst hka; subst hab; simp [psLookup, psSetStatus]
      · subst hka; simp [psLookup, psSetStatus, hab]
    · by_cases hkb : k = b
      · have hab : ¬ a = b := fun h => hka (by rw [hkb, h])
        subst hkb
        simp [psLookup, psSetStatus, hka, hab]
      · simp [psLookup, psSetStatus, hka, hkb, ih]

theorem psLookup_insert (ps : List (String × peerStatus)) (a b : String) (v : peerStatus) :
    psLookup (psInsert ps a v) b = if a = b then some v else psLookup ps b := by
  induction ps with
  | nil => by_cases hab : a = b <;> simp [psLookup, psInsert, hab]
  | cons kv rest ih =>
    rcases kv with ⟨k, w⟩
    by_cases hka : k = a
    · by_cases hab : a = b
      · subst hka; subst hab; simp [psLookup, psInsert]
      · subst hka; simp [psLookup, psInsert, hab]
    · by_cases hkb : k = b
      · have hab : ¬ a = b := fun h => hka (by rw [hkb, h])
        subst hkb
        simp [psLookup, psInsert, hka, hab]
      · simp [psLookup, psInsert, hka, hkb, ih]

theorem psCount_setStatus (ps : List (String × peerStatus)) (a b : String) (st : peerStat) :
    psCount (psSetStatus ps a st) b = psCount ps b := by
  induction ps with
  | nil => simp [psCount, psSetStatus]
  | cons kv rest ih =>
    rcases kv with ⟨k, w⟩
    by_cases hka : k = a
    · simp [psCount, psSetStatus, hka, List.countP_cons]
    · simp only [psCount] at ih
      simp [psCount, psSetStatus, hka, List.countP_cons, ih]

theorem psCount_of_lookup_none (ps : List (String × peerStatus)) (a : String)
    (h : psLookup ps a = none) : psCount ps a = 0 := by
  induction ps with
  | nil => simp [psCount]
  | cons kv rest ih =>
    rcases kv with ⟨k, w⟩
    by_cases hka : k = a
    · simp [psLookup, hka] at h
    · simp only [psLookup, hka, if_false] at h
      simp only [psCount] at ih
      simp [psCount, List.countP_cons, hka, ih h]

theorem psCount_insert_fresh (ps : List (String × peerStatus)) (a : String) (v : peerStatus)
    (h : psLookup ps a = none) : psCount (psInsert ps a v) a = 1 := by
  induction ps with
  | nil => simp [psCount, psInsert]
  | cons kv rest ih =>
    rcases kv with ⟨k, w⟩
    by_cases hka : k = a
    · simp [psLookup, hka] at h
    · simp only [psLookup, hka, if_false] at h
      have := ih h
      simp only [psCount] at this
      simp [psCount, psInsert, List.countP_cons, hka, this]

/-! ## StartPeer -/

theorem syncStarts_append (xs ys : List Event) :
    syncStarts (xs ++ ys) = syncStarts xs ++ syncStarts ys := by
  induction xs with
  | nil => simp [syncStarts]
  | cons e rest ih => cases e <;> simp [syncStarts, ih]

theorem StartPeer_tracked_fail (c : Client) (p : Peer) (err : Error) (e : peerStatus)
    (htr : psLookup c.ps p.Address = some e) :
    StartPeer c (some p) (some err) =
      some ({ c with trace := c.trace ++ [Event.StartPeer p, Event.Start p,
                Event.peerChanSend (connectErrMsg p err)] }, some err) := by
  simp [StartPeer, Client.emit, htr]

theorem StartPeer_tracked_first (c : Client) (p : Peer) (e : peerStatus)
    (htr : psLookup c.ps p.Address = some e)
    (hneed : c.needSync = true) (hcur : c.currentSyncPeer = none) :
    StartPeer c (some p) none =
      some ({ c with ps := psSetStatus c.ps p.Address .peerStatNormal,
                     currentSyncPeer := some p,
                     trace := c.trace ++ [Event.StartPeer p, Event.Start p,
                       Event.startSyncIrr p] }, none) := by
  simp [StartPeer, Client.emit, htr, hneed, hcur, startSyncIrr]

theorem StartPeer_tracked_later (c : Client) (p q : Peer) (e : peerStatus)
    (htr : psLookup c.ps p.Address = some e) (hcur : c.currentSyncPeer = some q) :
    StartPeer c (some p) none =
      some ({ c with ps := psSetStatus c.ps p.Address .peerStatNormal,
                     trace := c.trace ++ [Event.StartPeer p, Event.Start p] }, none) := by
  simp [StartPeer, Client.emit, htr, hcur]

theorem tracked_setStatus (ps : List (String × peerStatus)) (a b : String) (st : peerStat)
    (h : psLookup ps b ≠ none) : psLookup (psSetStatus ps a st) b ≠ none := by
  rw [psLookup_setStatus]
  cases hb : psLookup ps b with
  | none => exact absurd hb h
  | some e => by_cases hab : a = b <;> simp [hab]

/-- Once a sync peer is set, a run of `StartPeer` calls on tracked peers keeps it
and never invokes the sync-start procedure. -/
theorem startPeers_keeps (calls : List (Peer × Option Error)) :
    ∀ (c : Client) (q : Peer), c.currentSyncPeer = some q →
      (∀ call ∈ calls, psLookup c.ps call.1.Address ≠ none) →
      ∃ c1, startPeers c calls = some c1 ∧ c1.currentSyncPeer = some q ∧
        c1.needSync = c.needSync ∧ syncStarts c1.trace = syncStarts c.trace ∧
        (∀ a, psLookup c.ps a ≠ none → psLookup c1.ps a ≠ none) := by
  induction calls with
  | nil => intro c q hq _; exact ⟨c, rfl, hq, rfl, rfl, fun _ h => h⟩
  | cons call rest ih =>
    intro c q hq htr
    rcases call with ⟨p, r⟩
    have hp : psLookup c.ps p.Address ≠ none := htr (p, r) (by simp)
    obtain ⟨e, he⟩ := Option.ne_none_iff_exists'.mp hp
    cases r with
    | some err =>
      obtain ⟨c1, h1, h2, h3, h4, h5⟩ := ih
        { c with trace := c.trace ++ [Event.StartPeer p, Event.Start p,
                Event.peerChanSend (connectErrMsg p err)] } q hq
        (fun call hc => htr call (by simp [hc]))
      refine ⟨c1, by simp [startPeers, StartPeer_tracked_fail c p err e he, h1], h2, h3, ?_, h5⟩
      rw [h4]; simp [syncStarts_append, syncStarts]
    | none =>
      obtain ⟨c1, h1, h2, h3, h4, h5⟩ := ih
        { c with ps := psSetStatus c.ps p.Address .peerStatNormal,
                 trace := c.trace ++ [Event.StartPeer p, Event.Start p] } q hq
        (fun call hc => tracked_setStatus _ _ _ _ (htr call (by simp [hc])))
      refine ⟨c1, by simp [startPeers, StartPeer_tracked_later c p q e he hq, h1], h2, h3, ?_,
        fun a ha => h5 a (tracked_setStatus _ _ _ _ ha)⟩
      rw [h4]; simp [syncStarts_append, syncStarts]

/-- Before a sync peer is set and while sync is needed, a run of `StartPeer`
calls on tracked peers designates the peer of the first successful call. -/
theorem startPeers_first (calls : List (Peer × Option Error)) :
    ∀ (c : Client), c.needSync = true → c.currentSyncPeer = none →
      (∀ call ∈ calls, psLookup c.ps call.1.Address ≠ none) →
      ∃ c1, startPeers c calls = some c1 ∧ c1.currentSyncPeer = firstSuccess calls ∧
        syncStarts c1.trace = syncStarts c.trace ++ (firstSuccess calls).toList := by
  induction calls with
  | nil => intro c _ hcur _; exact ⟨c, rfl, by simp [hcur, firstSuccess], by simp [firstSuccess]⟩
  | cons call rest ih =>
    intro c hneed hcur htr
    rcases call with ⟨p, r⟩
    have hp : psLookup c.ps p.Address ≠ none := htr (p, r) (by simp)
    obtain ⟨e, he⟩ := Option.ne_none_iff_exists'.mp hp
    cases r with
    | some err =>
      obtain ⟨c1, h1, h2, h3⟩ := ih
        { c with trace := c.trace ++ [Event.StartPeer p, Event.Start p,
                Event.peerChanSend (connectErrMsg p err)] } hneed hcur
        (fun call hc => htr call (by simp [hc]))
      refine ⟨c1, by simp [startPeers, StartPeer_tracked_fail c p err e he, h1],
        by simp [firstSuccess, h2], ?_⟩
      rw [h3]; simp [syncStarts_append, syncStarts, firstSuccess]
    | none =>
      obtain ⟨c1, h1, h2, _, h4, _⟩ := startPeers_keeps rest
        { c with ps := psSetStatus c.ps p.Address .peerStatNormal,
                 currentSyncPeer := some p,
                 trace := c.trace ++ [Event.StartPeer p, Event.Start p,
                   Event.startSyncIrr p] } p rfl
        (fun call hc => tracked_setStatus _ _ _ _ (htr call (by simp [hc])))
      refine ⟨c1, by simp [startPeers, StartPeer_tracked_first c p e he hneed hcur, h1],
        by simp [firstSuccess, h2], ?_⟩
      rw [h4]; simp [syncStarts_append, syncStarts, firstSuccess]

theorem startPeers_append (xs ys : List (Peer × Option Error)) :
    ∀ c : Client, startPeers c (xs ++ ys) =
      match startPeers c xs with
      | none => none
      | some c1 => startPeers c1 ys := by
  induction xs with
  | nil => intro c; simp [startPeers]
  | cons call rest ih =>
    intro c
    rcases call with ⟨p, r⟩
    simp only [List.cons_append, startPeers]
    cases h : StartPeer c (some p) r with
    | none => simp
    | some res => simp [ih]

theorem firstSuccess_split (before after : List (Peer × Option Error)) (p : Peer)
    (hfail : ∀ b ∈ before, b.2 ≠ none) :
    firstSuccess (before ++ (p, none) :: after) = some p := by
  induction before with
  | nil => simp [firstSuccess]
  | cons b rest ih =>
    rcases b with ⟨q, r⟩
    cases r with
    | none => exact absurd rfl (hfail (q, none) (by simp))
    | some err =>
      simp only [List.cons_append, firstSuccess]
      exact ih (fun b hb => hfail b (by simp [hb]))

/-! ## Claim on the choice of the sync peer -/

/-- C6: from a client with `needSync` true and `currentSyncPeer` nil, every finite
sequence of `StartPeer` calls on tracked peers runs to its end; afterwards
`currentSyncPeer` is the peer of the first successful call and the sync-start
procedure has been invoked for that peer and for no other; when p is the peer of
the first successful call, exactly one invocation was made, and after every later
call of the sequence `currentSyncPeer` is still p. -/
theorem startPeers_single_sync_source (c : Client) (calls : List (Peer × Option Error))
    (hneed : c.needSync = true) (hcur : c.currentSyncPeer = none)
    (htr : ∀ call ∈ calls, psLookup c.ps call.1.Address ≠ none) :
    ∃ c1, startPeers c calls = some c1 ∧
      c1.currentSyncPeer = firstSuccess calls ∧
      syncStarts c1.trace = syncStarts c.trace ++ (firstSuccess calls).toList ∧
      (∀ before p after, calls = before ++ (p, none) :: after → (∀ b ∈ before, b.2 ≠ none) →
        c1.currentSyncPeer = some p ∧
        syncStarts c1.trace = syncStarts c.trace ++ [p] ∧
        ∀ mid rest, after = mid ++ rest →
          ∃ cm, startPeers c (before ++ (p, none) :: mid) = some cm ∧
            cm.currentSyncPeer = some p ∧
            syncStarts cm.trace = syncStarts c.trace ++ [p]) := by
  obtain ⟨c1, h1, h2, h3⟩ := startPeers_first calls c hneed hcur htr
  refine ⟨c1, h1, h2, h3, ?_⟩
  intro before p after hsplit hfail
  have hfs : firstSuccess calls = some p := by
    rw [hsplit]; exact firstSuccess_split before after p hfail
  refine ⟨by rw [h2, hfs], by rw [h3, hfs]; rfl, ?_⟩
  intro mid rest hafter
  have htr2 : ∀ call ∈ before ++ (p, none) :: mid, psLookup c.ps call.1.Address ≠ none := by
    intro call hc
    apply htr call
    rw [hsplit, hafter]
    simp only [List.mem_append, List.mem_cons] at hc ⊢
    rcases hc with hc | hc | hc
    · exact Or.inl hc
    · exact Or.inr (Or.inl hc)
    · exact Or.inr (Or.inr (Or.inl hc))
  obtain ⟨cm, hm1, hm2, hm3⟩ := startPeers_first (before ++ (p, none) :: mid) c hneed hcur htr2
  have hfm := firstSuccess_split before mid p hfail
  exact ⟨cm, hm1, by rw [hm2, hfm], by rw [hm3, hfm]; rfl⟩

/-- Witness for C6: the peer at a:1 fails to connect, then b:2 and c:3 connect;
b:2 becomes the sync peer and is the only one the sync start is invoked for. -/
theorem startPeers_single_sync_source_witness :
    (startPeers threePeers
        [(mkPeer 1 "a:1", some (Error.other "refused")), (mkPeer 2 "b:2", none),
         (mkPeer 3 "c:3", none)]).map (fun c1 => (c1.currentSyncPeer, syncStarts c1.trace)) =
      some (some (mkPeer 2 "b:2"), [mkPeer 2 "b:2"]) ∧
    ∃ c1, startPeers threePeers
        [(mkPeer 1 "a:1", some (Error.other "refused")), (mkPeer 2 "b:2", none),
         (mkPeer 3 "c:3", none)] = some c1 ∧
      c1.currentSyncPeer = firstSuccess
        [(mkPeer 1 "a:1", some (Error.other "refused")), (mkPeer 2 "b:2", none),
         (mkPeer 3 "c:3", none)] ∧
      syncStarts c1.trace = syncStarts threePeers.trace ++ (firstSuccess
        [(mkPeer 1 "a:1", some (Error.other "refused")), (mkPeer 2 "b:2", none),
         (mkPeer 3 "c:3", none)]).toList ∧
      (∀ before p after,
        [(mkPeer 1 "a:1", some (Error.other "refused")), (mkPeer 2 "b:2", none),
         (mkPeer 3 "c:3", none)] = before ++ (p, none) :: after → (∀ b ∈ before, b.2 ≠ none) →
        c1.currentSyncPeer = some p ∧
        syncStarts c1.trace = syncStarts threePeers.trace ++ [p] ∧
        ∀ mid rest, after = mid ++ rest →
          ∃ cm, startPeers threePeers (before ++ (p, none) :: mid) = some cm ∧
            cm.currentSyncPeer = some p ∧
            syncStarts cm.trace = syncStarts threePeers.trace ++ [p]) :=
  ⟨by decide,
   startPeers_single_sync_source threePeers
     [(mkPeer 1 "a:1", some (Error.other "refused")), (mkPeer 2 "b:2", none),
      (mkPeer 3 "c:3", none)] rfl rfl (by decide)⟩

/-! ## Lifecycle handlers: frame lemmas -/

theorem psClosed_eq_true (ps : List (String × peerStatus)) (a : String) :
    psClosed ps a = true ↔ ∃ e, psLookup ps a = some e ∧ e.status = .peerStatClosed := by
  unfold psClosed
  cases psLookup ps a with
  | none => simp
  | some e => simp

/-- What a returning `StartPeer` does to the table and to the trace. -/
theorem StartPeer_frame (c c1 : Client) (p : Peer) (se r : Option Error)
    (h : StartPeer c (some p) se = some (c1, r)) :
    (∀ a, a ≠ p.Address → psLookup c1.ps a = psLookup c.ps a) ∧
    (psLookup c1.ps p.Address = psLookup c.ps p.Address ∨
      ∃ e, psLookup c.ps p.Address = some e ∧
        psLookup c1.ps p.Address = some { e with status := .peerStatNormal }) ∧
    (∃ evs, c1.trace = c.trace ++ Event.StartPeer p :: evs ∧ ∀ q, Event.StartPeer q ∉ evs) := by
  unfold StartPeer at h
  simp only [Client.emit] at h
  cases hl : psLookup c.ps p.Address with
  | none =>
    simp only [hl] at h
    cases h
    exact ⟨fun _ _ => rfl, Or.inl hl, [], rfl, by simp⟩
  | some e =>
    simp only [hl] at h
    cases se with
    | some err =>
      simp only [Option.some.injEq, Prod.mk.injEq] at h
      obtain ⟨rfl, _⟩ := h
      exact ⟨fun _ _ => rfl, Or.inl hl,
        [Event.Start p, Event.peerChanSend (connectErrMsg p err)], by simp, by simp⟩
    | none =>
      simp only [startSyncIrr, Client.emit] at h
      have hps : c1.ps = psSetStatus c.ps p.Address .peerStatNormal ∧
          ∃ evs, c1.trace = c.trace ++ Event.StartPeer p :: evs ∧
            ∀ q, Event.StartPeer q ∉ evs := by
        split at h
        · simp only [Option.some.injEq, Prod.mk.injEq] at h
          obtain ⟨rfl, _⟩ := h
          exact ⟨rfl, [Event.Start p, Event.startSyncIrr p], by simp, by simp⟩
        · simp only [Option.some.injEq, Prod.mk.injEq] at h
          obtain ⟨rfl, _⟩ := h
          exact ⟨rfl, [Event.Start p], by simp, by simp⟩
      obtain ⟨hps1, hev⟩ := hps
      refine ⟨?_, Or.inr ⟨e, rfl, ?_⟩, hev⟩
      · intro a ha
        rw [hps1, psLookup_setStatus, if_neg (fun h => ha h.symm)]
      · rw [hps1, psLookup_setStatus, if_pos rfl, hl]
        rfl

/-- A returning `StartPeer` on a peer whose entry is not `Closed` keeps every
`Closed` entry and leaves the peer's own entry not `Closed`. -/
theorem StartPeer_closed (c c1 : Client) (p : Peer) (se r : Option Error)
    (hnc : psClosed c.ps p.Address = false)
    (h : StartPeer c (some p) se = some (c1, r)) :
    (∀ a e, psLookup c.ps a = some e → e.status = .peerStatClosed → psLookup c1.ps a = some e) ∧
    psClosed c1.ps p.Address = false ∧
    (∃ evs, c1.trace = c.trace ++ Event.StartPeer p :: evs ∧ ∀ q, Event.StartPeer q ∉ evs) := by
  obtain ⟨hother, hown, hev⟩ := StartPeer_frame c c1 p se r h
  refine ⟨?_, ?_, hev⟩
  · intro a e hl hst
    by_cases ha : a = p.Address
    · subst ha
      have : psClosed c.ps p.Address = true := (psClosed_eq_true _ _).mpr ⟨e, hl, hst⟩
      rw [hnc] at this
      exact absurd this (by simp)
    · rw [hother a ha, hl]
  · rcases hown with hsame | ⟨e, _, he1⟩
    · unfold psClosed at hnc ⊢
      rw [hsame]; exact hnc
    · simp [psClosed, he1]

theorem onErrPeer_closed_noop (c : Client) (msg : peerMsg) (p : Peer) (se : Option Error)
    (hp : msg.peer = some p) (hcl : psClosed c.ps p.Address = true) :
    onErrPeer c msg se = some c := by
  obtain ⟨e, hl, hst⟩ := (psClosed_eq_true _ _).mp hcl
  unfold onErrPeer
  rw [hp]
  cases msg.err with
  | none => rfl
  | some err => simp [hl, hst]

theorem onDelPeer_closes (c c1 : Client) (msg : peerMsg) (cfg : PeerCfg) (e : peerStatus)
    (hcfg : msg.cfg = some cfg) (hl : psLookup c.ps cfg.Address = some e)
    (h : onDelPeer c msg = some c1) :
    ∃ p, e.peer = some p ∧
      c1 = { c with ps := psSetStatus c.ps cfg.Address .peerStatClosed,
                    trace := c.trace ++ [Event.ClosePeer p, Event.Wait p] } := by
  unfold onDelPeer at h
  simp only [hcfg, hl] at h
  cases hp : e.peer with
  | none => simp [hp] at h
  | some p =>
    simp only [hp, Client.emit, Option.some.injEq] at h
    exact ⟨p, rfl, by rw [← h]; simp⟩

theorem onNewPeer_closed (c c1 : Client) (msg : peerMsg) (o : Oracle)
    (hctor : ctorKeepsAddress msg o = true)
    (h : onNewPeer c msg o.newPeer o.startErr = some c1) :
    (∀ a e, psLookup c.ps a = some e → e.status = .peerStatClosed → psLookup c1.ps a = some e) ∧
    ∃ evs, c1.trace = c.trace ++ evs ∧
      ∀ p, Event.StartPeer p ∈ evs →
        psClosed c.ps p.Address = false ∧ psClosed c1.ps p.Address = false := by
  unfold onNewPeer at h
  cases hcfg : msg.cfg with
  | none => simp [hcfg] at h
  | some cfg =>
    simp only [hcfg] at h
    cases hl : psLookup c.ps cfg.Address with
    | some e0 =>
      simp only [hl, Option.some.injEq] at h
      subst h
      exact ⟨fun a e hle _ => hle, [], by simp, by simp⟩
    | none =>
      simp only [hl] at h
      split at h
      · simp at h
      · cases hnp : o.newPeer.1 with
        | none => simp [hnp, StartPeer] at h
        | some p =>
          simp only [hnp, Option.map_eq_some', Prod.exists, exists_and_right, exists_eq_right] at h
          obtain ⟨r, hsp⟩ := h
          have haddr : p.Address = cfg.Address := by
            simpa [ctorKeepsAddress, hnp, hcfg] using hctor
          have hnc2 : psClosed (psInsert (c.emit (Event.NewPeer cfg)).ps cfg.Address
              { peer := some p, status := .peerStatInit, cfg := some cfg }) p.Address = false := by
            simp [psClosed, psLookup_insert, haddr]
          obtain ⟨hkeep, hown, evs, htrace, hnot⟩ := StartPeer_closed _ c1 p o.startErr r hnc2 hsp
          refine ⟨?_, Event.NewPeer cfg :: Event.StartPeer p :: evs, ?_, ?_⟩
          · intro a e hle hst
            apply hkeep a e _ hst
            have hne : ¬ cfg.Address = a := by
              intro hEq; rw [← hEq, hl] at hle; cases hle
            simp only [Client.emit]
            rw [psLookup_insert, if_neg hne, hle]
          · rw [htrace]; simp [Client.emit]
          · intro q hq
            simp only [List.mem_cons] at hq
            rcases hq with hq | hq | hq
            · cases hq
            · cases hq
              refine ⟨?_, hown⟩
              simp [psClosed, haddr, hl]
            · exact absurd hq (hnot q)

theorem onDelPeer_closed (c c1 : Client) (msg : peerMsg)
    (h : onDelPeer c msg = some c1) :
    (∀ a e, psLookup c.ps a = some e → e.status = .peerStatClosed → psLookup c1.ps a = some e) ∧
    ∃ evs, c1.trace = c.trace ++ evs ∧
      ∀ p, Event.StartPeer p ∈ evs →
        psClosed c.ps p.Address = false ∧ psClosed c1.ps p.Address = false := by
  cases hcfg : msg.cfg with
  | none => simp [onDelPeer, hcfg] at h
  | some cfg =>
    cases hl : psLookup c.ps cfg.Address with
    | none =>
      simp only [onDelPeer, hcfg, hl, Option.some.injEq] at h
      subst h
      exact ⟨fun a e hle _ => hle, [], by simp, by simp⟩
    | some e0 =>
      obtain ⟨p, _, hc1⟩ := onDelPeer_closes c c1 msg cfg e0 hcfg hl h
      subst hc1
      refine ⟨?_, [Event.ClosePeer p, Event.Wait p], rfl, by simp⟩
      intro a e hle hst
      simp only [psLookup_setStatus]
      by_cases ha : cfg.Address = a
      · rw [if_pos ha, hle]
        rcases e with ⟨ep, es, ec⟩
        simp only at hst
        simp [hst]
      · rw [if_neg ha, hle]

theorem onErrPeer_closed (c c1 : Client) (msg : peerMsg) (se : Option Error)
    (h : onErrPeer c msg se = some c1) :
    (∀ a e, psLookup c.ps a = some e → e.status = .peerStatClosed → psLookup c1.ps a = some e) ∧
    ∃ evs, c1.trace = c.trace ++ evs ∧
      ∀ p, Event.StartPeer p ∈ evs →
        psClosed c.ps p.Address = false ∧ psClosed c1.ps p.Address = false := by
  have hnoop : c1 = c → (∀ a e, psLookup c.ps a = some e → e.status = .peerStatClosed →
      psLookup c1.ps a = some e) ∧
      ∃ evs, c1.trace = c.trace ++ evs ∧
        ∀ p, Event.StartPeer p ∈ evs →
          psClosed c.ps p.Address = false ∧ psClosed c1.ps p.Address = false := by
    intro hEq; subst hEq
    exact ⟨fun a e hle _ => hle, [], by simp, by simp⟩
  unfold onErrPeer at h
  cases herr : msg.err with
  | none => simp only [herr, Option.some.injEq] at h; exact hnoop h.symm
  | some err =>
    cases hp : msg.peer with
    | none => simp only [herr, hp, Option.some.injEq] at h; exact hnoop h.symm
    | some p =>
      simp only [herr, hp] at h
      cases hl : psLookup c.ps p.Address with
      | none => simp only [hl, Option.some.injEq] at h; exact hnoop h.symm
      | some e0 =>
        simp only [hl] at h
        by_cases hst : e0.status = .peerStatClosed
        · simp only [hst, if_true, Option.some.injEq] at h; exact hnoop h.symm
        · simp only [hst, if_false] at h
          have hnc : psClosed c.ps p.Address = false := by simp [psClosed, hl, hst]
          cases hsp : StartPeer c (some p) se with
          | none => simp [hsp] at h
          | some res =>
            rcases res with ⟨c2, r⟩
            obtain ⟨hkeep, hown, evs, htrace, hnot⟩ := StartPeer_closed c c2 p se r hnc hsp
            cases r with
            | none =>
              simp only [hsp, Option.some.injEq] at h
              subst h
              refine ⟨hkeep, Event.StartPeer p :: evs, htrace, ?_⟩
              intro q hq
              simp only [List.mem_cons] at hq
              rcases hq with hq | hq
              · cases hq; exact ⟨hnc, hown⟩
              · exact absurd hq (hnot q)
            | some e1 =>
              simp only [hsp, Option.some.injEq] at h
              subst h
              refine ⟨hkeep, Event.StartPeer p :: (evs ++ [Event.Sleep 3]), ?_, ?_⟩
              · simp [Client.emit, htrace]
              · intro q hq
                simp only [List.mem_cons, List.mem_append, List.mem_singleton] at hq
                rcases hq with hq | hq | hq | hq
                · cases hq; exact ⟨hnc, hown⟩
                · exact absurd hq (hnot q)
                · cases hq
                · simp at hq

/-- One lifecycle message (NewPeer, DelPeer or ErrPeer) keeps every `Closed` entry
as it is and applies `StartPeer` only to peers whose entry is not `Closed`. -/
theorem peerMngDispatch_closed (osf : Client → peerMsg → Option Client) (c c1 : Client)
    (msg : peerMsg) (o : Oracle) (htyp : msg.msgTyp ≠ .peerSyncFinished)
    (hctor : ctorKeepsAddress msg o = true)
    (h : peerMngDispatch osf c msg o = some c1) :
    (∀ a e, psLookup c.ps a = some e → e.status = .peerStatClosed → psLookup c1.ps a = some e) ∧
    ∃ evs, c1.trace = c.trace ++ evs ∧
      ∀ p, Event.StartPeer p ∈ evs →
        psClosed c.ps p.Address = false ∧ psClosed c1.ps p.Address = false := by
  unfold peerMngDispatch at h
  cases hty : msg.msgTyp with
  | peerMsgNewPeer => simp only [hty] at h; exact onNewPeer_closed c c1 msg o hctor h
  | peerMsgDelPeer => simp only [hty] at h; exact onDelPeer_closed c c1 msg h
  | peerMsgErrPeer => simp only [hty] at h; exact onErrPeer_closed c c1 msg o.startErr h
  | peerSyncFinished => exact absurd hty htyp

theorem peerMngRun_closed (osf : Client → peerMsg → Option Client)
    (msgs : List (peerMsg × Oracle)) :
    ∀ (c c1 : Client),
      (∀ m ∈ msgs, m.1.msgTyp ≠ .peerSyncFinished ∧ ctorKeepsAddress m.1 m.2 = true) →
      peerMngRun osf c msgs = some c1 →
      ∀ a e, psLookup c.ps a = some e → e.status = .peerStatClosed →
        psLookup c1.ps a = some e := by
  induction msgs with
  | nil =>
    intro c c1 _ hrun a e hl _
    simp only [peerMngRun, Option.some.injEq] at hrun
    subst hrun; exact hl
  | cons m rest ih =>
    intro c c1 hall hrun a e hl hst
    rcases m with ⟨msg, o⟩
    simp only [peerMngRun] at hrun
    cases hstep : peerMngDispatch osf c msg o with
    | none => simp [hstep] at hrun
    | some c2 =>
      simp only [hstep] at hrun
      have hm := hall (msg, o) (by simp)
      have h2 := (peerMngDispatch_closed osf c c2 msg o hm.1 hm.2 hstep).1 a e hl hst
      exact ih c2 c1 (fun m hmem => hall m (by simp [hmem])) hrun a e h2 hst

theorem StartPeer_returns (c : Client) (p : Peer) (se : Option Error) :
    ∃ c1 r, StartPeer c (some p) se = some (c1, r) ∧
      (c1.ps = c.ps ∨ c1.ps = psSetStatus c.ps p.Address .peerStatNormal) := by
  unfold StartPeer
  simp only [Client.emit]
  cases psLookup c.ps p.Address with
  | none => exact ⟨_, _, rfl, Or.inl rfl⟩
  | some e =>
    cases se with
    | some err => exact ⟨_, _, rfl, Or.inl rfl⟩
    | none =>
      simp only [startSyncIrr, Client.emit]
      split
      · exact ⟨_, _, rfl, Or.inr rfl⟩
      · exact ⟨_, _, rfl, Or.inr rfl⟩

/-! ## Claims on the peer lifecycle loop -/

/-- C7: when the table has an entry for address A (with a peer to close),
`onDelPeer` for A returns, and from then on, also after any further NewPeer,
DelPeer and ErrPeer messages, every `onErrPeer` whose sender has address A returns
the client exactly as it was: no `Start`, no event, the same table and the same
`currentSyncPeer`. -/
theorem onErrPeer_after_onDelPeer_noop (osf : Client → peerMsg → Option Client) (c : Client)
    (del : peerMsg) (cfg : PeerCfg) (e : peerStatus) (q : Peer)
    (hcfg : del.cfg = some cfg) (htracked : psLookup c.ps cfg.Address = some e)
    (hpeer : e.peer = some q) :
    ∃ c1, onDelPeer c del = some c1 ∧
      ∀ (msgs : List (peerMsg × Oracle)) (c2 : Client),
        (∀ m ∈ msgs, m.1.msgTyp ≠ .peerSyncFinished ∧ ctorKeepsAddress m.1 m.2 = true) →
        peerMngRun osf c1 msgs = some c2 →
        ∀ (msg : peerMsg) (p : Peer) (se : Option Error),
          msg.peer = some p → p.Address = cfg.Address → onErrPeer c2 msg se = some c2 := by
  have hdel : onDelPeer c del =
      some ((({ c with ps := psSetStatus c.ps cfg.Address .peerStatClosed } : Client).emit
        (Event.ClosePeer q)).emit (Event.Wait q)) := by
    simp [onDelPeer, hcfg, htracked, hpeer]
  refine ⟨_, hdel, ?_⟩
  intro msgs c2 hall hrun msg p se hp haddr
  have hl1 : psLookup ((({ c with ps := psSetStatus c.ps cfg.Address .peerStatClosed } : Client).emit
      (Event.ClosePeer q)).emit (Event.Wait q)).ps cfg.Address =
      some { e with status := .peerStatClosed } := by
    simp [Client.emit, psLookup_setStatus, htracked]
  have hl2 := peerMngRun_closed osf msgs _ c2 hall hrun cfg.Address _ hl1 rfl
  apply onErrPeer_closed_noop c2 msg p se hp
  rw [haddr]
  exact (psClosed_eq_true _ _).mpr ⟨_, hl2, rfl⟩

/-- Witness for C7: delete b:2, then a stale error of b:2 right away, and again
after a reconnect of a:1 and a NewPeer for d:4. -/
theorem onErrPeer_after_onDelPeer_noop_witness :
    (∃ c1 c2, onDelPeer threePeers (Client.DelPeerByAddressMsg "b:2") = some c1 ∧
      onErrPeer c1 ⟨.peerMsgErrPeer, some (mkPeer 2 "b:2"), none, some Error.EOF⟩ none = some c1 ∧
      peerMngRun (fun c _ => some c) c1
        [(⟨.peerMsgErrPeer, some (mkPeer 1 "a:1"), none, some Error.EOF⟩, ⟨(none, none), none⟩),
         (Client.NewPeerMsg (some ⟨"d:4"⟩), ⟨(some (mkPeer 4 "d:4"), none), none⟩)] = some c2 ∧
      c2 ≠ c1 ∧
      onErrPeer c2 ⟨.peerMsgErrPeer, some (mkPeer 2 "b:2"), none, some Error.EOF⟩ none = some c2) ∧
    ∃ c1, onDelPeer threePeers (Client.DelPeerByAddressMsg "b:2") = some c1 ∧
      ∀ (msgs : List (peerMsg × Oracle)) (c2 : Client),
        (∀ m ∈ msgs, m.1.msgTyp ≠ .peerSyncFinished ∧ ctorKeepsAddress m.1 m.2 = true) →
        peerMngRun (fun c _ => some c) c1 msgs = some c2 →
        ∀ (msg : peerMsg) (p : Peer) (se : Option Error),
          msg.peer = some p → p.Address = "b:2" → onErrPeer c2 msg se = some c2 :=
  ⟨⟨_, _, rfl, by decide, rfl, by decide, by decide⟩,
   onErrPeer_after_onDelPeer_noop (fun c _ => some c) threePeers
     (Client.DelPeerByAddressMsg "b:2") ⟨"b:2"⟩
     { peer := some (mkPeer 2 "b:2"), status := .peerStatInit, cfg := some ⟨"b:2"⟩ }
     (mkPeer 2 "b:2") rfl rfl rfl⟩

/-- C8: when the table already holds an entry for `cfg.Address` (in state Init or
Normal), `onNewPeer` returns the client unchanged: no peer constructed, nothing
started, the same table. Hence NewPeer for an untracked address A issued twice
(the constructor giving peer p the first time) leaves exactly one entry for A,
holding p, in state Init or Normal, and the second message changes nothing. -/
theorem onNewPeer_duplicate_ignored (c : Client) (msg : peerMsg) (cfg : PeerCfg)
    (hcfg : msg.cfg = some cfg) :
    (∀ e, psLookup c.ps cfg.Address = some e →
      (e.status = .peerStatInit ∨ e.status = .peerStatNormal) →
      ∀ (np : Option Peer × Option Error) (se : Option Error), onNewPeer c msg np se = some c) ∧
    (psLookup c.ps cfg.Address = none →
      ∀ (p : Peer) (se1 : Option Error) (msg2 : peerMsg) (np2 : Option Peer × Option Error)
        (se2 : Option Error), msg2.cfg = some cfg →
        ∃ c1, onNewPeer c msg (some p, none) se1 = some c1 ∧
          onNewPeer c1 msg2 np2 se2 = some c1 ∧
          psCount c1.ps cfg.Address = 1 ∧
          ∃ e1, psLookup c1.ps cfg.Address = some e1 ∧ e1.peer = some p ∧
            (e1.status = .peerStatInit ∨ e1.status = .peerStatNormal)) := by
  refine ⟨?_, ?_⟩
  · intro e hl _ np se
    simp [onNewPeer, hcfg, hl]
  · intro hl p se1 msg2 np2 se2 hcfg2
    obtain ⟨c1, r, hsp, hps⟩ := StartPeer_returns
      { (c.emit (Event.NewPeer cfg)) with
        ps := psInsert (c.emit (Event.NewPeer cfg)).ps cfg.Address
          { peer := some p, status := .peerStatInit, cfg := msg.cfg } } p se1
    have hfirst : onNewPeer c msg (some p, none) se1 = some c1 := by
      simp [onNewPeer, hcfg, hl]
      simp [hcfg] at hsp
      exact ⟨r, hsp⟩
    have hentry : ∃ e1, psLookup c1.ps cfg.Address = some e1 ∧ e1.peer = some p ∧
        (e1.status = .peerStatInit ∨ e1.status = .peerStatNormal) := by
      rcases hps with hps | hps
      · rw [hps]
        exact ⟨{ peer := some p, status := .peerStatInit, cfg := msg.cfg },
          by simp [psLookup_insert], rfl, Or.inl rfl⟩
      · rw [hps]
        by_cases ha : p.Address = cfg.Address
        · exact ⟨{ peer := some p, status := .peerStatNormal, cfg := msg.cfg },
            by simp [psLookup_setStatus, psLookup_insert, ha], rfl, Or.inr rfl⟩
        · exact ⟨{ peer := some p, status := .peerStatInit, cfg := msg.cfg },
            by simp [psLookup_setStatus, psLookup_insert, ha], rfl, Or.inl rfl⟩
    have hcount : psCount c1.ps cfg.Address = 1 := by
      rcases hps with hps | hps
      · rw [hps]; exact psCount_insert_fresh _ _ _ (by simpa [Client.emit] using hl)
      · rw [hps, psCount_setStatus]
        exact psCount_insert_fresh _ _ _ (by simpa [Client.emit] using hl)
    obtain ⟨e1, he1, hp1, hs1⟩ := hentry
    refine ⟨c1, hfirst, ?_, hcount, e1, he1, hp1, hs1⟩
    simp [onNewPeer, hcfg2, he1]

/-- Witness for C8: NewPeer for d:4 twice on a client that tracks three other peers. -/
theorem onNewPeer_duplicate_ignored_witness :
    (∃ c1, onNewPeer threePeers (Client.NewPeerMsg (some ⟨"d:4"⟩)) (some (mkPeer 4 "d:4"), none)
        none = some c1 ∧
      onNewPeer c1 (Client.NewPeerMsg (some ⟨"d:4"⟩)) (some (mkPeer 5 "d:4"), none) none =
        some c1 ∧
      psLookup c1.ps "d:4" =
        some { peer := some (mkPeer 4 "d:4"), status := .peerStatNormal, cfg := some ⟨"d:4"⟩ } ∧
      psCount c1.ps "d:4" = 1) ∧
    ((∀ e, psLookup threePeers.ps "a:1" = some e →
      (e.status = .peerStatInit ∨ e.status = .peerStatNormal) →
      ∀ (np : Option Peer × Option Error) (se : Option Error),
        onNewPeer threePeers (Client.NewPeerMsg (some ⟨"a:1"⟩)) np se = some threePeers) ∧
    (psLookup threePeers.ps "a:1" = none →
      ∀ (p : Peer) (se1 : Option Error) (msg2 : peerMsg) (np2 : Option Peer × Option Error)
        (se2 : Option Error), msg2.cfg = some ⟨"a:1"⟩ →
        ∃ c1, onNewPeer threePeers (Client.NewPeerMsg (some ⟨"a:1"⟩)) (some p, none) se1 =
            some c1 ∧
          onNewPeer c1 msg2 np2 se2 = some c1 ∧
          psCount c1.ps "a:1" = 1 ∧
          ∃ e1, psLookup c1.ps "a:1" = some e1 ∧ e1.peer = some p ∧
            (e1.status = .peerStatInit ∨ e1.status = .peerStatNormal))) :=
  ⟨⟨_, rfl, by decide, by decide, by decide⟩,
   onNewPeer_duplicate_ignored threePeers (Client.NewPeerMsg (some ⟨"a:1"⟩)) ⟨"a:1"⟩ rfl⟩

/-- C9: no transition leaves `Closed`. For every table and every NewPeer, DelPeer or
ErrPeer message the lifecycle loop processes (a constructed peer carrying the
address of its configuration), every entry that is `Closed` before is the same
`Closed` entry after, also along any sequence of such messages, and every
`StartPeer` the message leads to is applied to a peer whose entry is not `Closed`,
before the message and after it. -/
theorem closed_is_terminal (osf : Client → peerMsg → Option Client) (c : Client) :
    (∀ (msg : peerMsg) (o : Oracle) (c1 : Client), msg.msgTyp ≠ .peerSyncFinished →
      ctorKeepsAddress msg o = true → peerMngDispatch osf c msg o = some c1 →
      (∀ a e, psLookup c.ps a = some e → e.status = .peerStatClosed →
        psLookup c1.ps a = some e) ∧
      ∃ evs, c1.trace = c.trace ++ evs ∧
        ∀ p, Event.StartPeer p ∈ evs →
          psClosed c.ps p.Address = false ∧ psClosed c1.ps p.Address = false) ∧
    (∀ (msgs : List (peerMsg × Oracle)) (c1 : Client),
      (∀ m ∈ msgs, m.1.msgTyp ≠ .peerSyncFinished ∧ ctorKeepsAddress m.1 m.2 = true) →
      peerMngRun osf c msgs = some c1 →
      ∀ a e, psLookup c.ps a = some e → e.status = .peerStatClosed →
        psLookup c1.ps a = some e) := by
  refine ⟨?_, ?_⟩
  · intro msg o c1 htyp hctor hstep
    exact peerMngDispatch_closed osf c c1 msg o htyp hctor hstep
  · intro msgs c1 hall hrun
    exact peerMngRun_closed osf msgs c c1 hall hrun

/-- Witness for C9: with b:2 `Closed`, a connection error of a:1 restarts a:1 and
a stale error of b:2 does nothing; the entry of b:2 stays `Closed`. -/
theorem closed_is_terminal_witness :
    (∃ c1, peerMngDispatch (fun c _ => some c) closedPeerB
        ⟨.peerMsgErrPeer, some (mkPeer 1 "a:1"), none, some Error.EOF⟩ ⟨(none, none), none⟩ =
          some c1 ∧
      c1.ps = [mkEntry (mkPeer 1 "a:1") .peerStatNormal,
        mkEntry (mkPeer 2 "b:2") .peerStatClosed, mkEntry (mkPeer 3 "c:3") .peerStatInit] ∧
      Event.StartPeer (mkPeer 1 "a:1") ∈ c1.trace ∧
      ((∀ a e, psLookup closedPeerB.ps a = some e → e.status = .peerStatClosed →
        psLookup c1.ps a = some e) ∧
      ∃ evs, c1.trace = closedPeerB.trace ++ evs ∧
        ∀ p, Event.StartPeer p ∈ evs →
          psClosed closedPeerB.ps p.Address = false ∧ psClosed c1.ps p.Address = false)) ∧
    peerMngDispatch (fun c _ => some c) closedPeerB
        ⟨.peerMsgErrPeer, some (mkPeer 2 "b:2"), none, some Error.EOF⟩ ⟨(none, none), none⟩ =
      some closedPeerB :=
  ⟨⟨_, rfl, by decide, by decide,
    (closed_is_terminal (fun c _ => some c) closedPeerB).1
      ⟨.peerMsgErrPeer, some (mkPeer 1 "a:1"), none, some Error.EOF⟩ ⟨(none, none), none⟩ _
      (by decide) (by decide) rfl⟩,
   by decide⟩

/-! ## Claims on the send layer -/

theorem errorsWithStack_ne_none (e : Option Error) : errorsWithStack e ≠ none ↔ e ≠ none := by
  cases e <;> simp [errorsWithStack]

/-- C10: a failure encoding or writing the handshake is not propagated. Whenever the
placeholder public key is created, `SendHandshake` returns nil, whatever
`WriteP2PMessage` returned, while `SendGoAway`, `SendSyncRequest`, `SendRequest`,
`SendNotice` and `SendTime` return a non-nil error exactly when their
`WriteP2PMessage` call does. -/
theorem SendHandshake_swallows_write_error (env : SendEnv) (p : Peer) :
    (∀ (info : HandshakeInfo) (key : String),
      env.newPublicKey "EOS1111111111111111111111111111111114T1Anm" = .ok key →
      (SendHandshake env p info).err = none ∧
      (SendHandshake env p info).writes =
        (WriteP2PMessage env p (.Handshake (handshakeMessage env p info key))).writes) ∧
    (∀ reason, (SendGoAway env p reason).err ≠ none ↔
      (WriteP2PMessage env p (.GoAwayMessage reason p.NodeID)).err ≠ none) ∧
    (∀ s e, (SendSyncRequest env p s e).err ≠ none ↔
      (WriteP2PMessage env p (.SyncRequestMessage s e)).err ≠ none) ∧
    (∀ s e, (SendRequest env p s e).err ≠ none ↔
      (WriteP2PMessage env p (requestMessage s e)).err ≠ none) ∧
    (∀ h l m, (SendNotice env p h l m).err ≠ none ↔
      (WriteP2PMessage env p (noticeMessage h l m)).err ≠ none) ∧
    ((SendTime env p).err ≠ none ↔ (WriteP2PMessage env p .TimeMessage).err ≠ none) := by
  refine ⟨?_, ?_, ?_, ?_, ?_, ?_⟩
  · intro info key hkey
    simp [SendHandshake, hkey]
  · intro reason
    simp only [SendGoAway]
    exact errorsWithStack_ne_none _
  · intro s e
    simp only [SendSyncRequest]
    exact errorsWithStack_ne_none _
  · intro s e
    simp only [SendRequest]
    exact errorsWithStack_ne_none _
  · intro h l m
    simp only [SendNotice]
    exact errorsWithStack_ne_none _
  · simp only [SendTime]
    exact errorsWithStack_ne_none _

/-- Witness for C10: over a transport whose write fails, the handshake reports
nil although its `WriteP2PMessage` failed, and `SendTime` reports the failure;
over a working transport both report nil. -/
theorem SendHandshake_swallows_write_error_witness :
    ((WriteP2PMessage brokenPipeEnv (mkPeer 1 "a:1")
        (.Handshake (handshakeMessage brokenPipeEnv (mkPeer 1 "a:1") zeroInfo
          "EOS1111111111111111111111111111111114T1Anm"))).err =
        some (Error.wrap (Error.other "broken pipe") "write msg to a:1") ∧
      (SendTime brokenPipeEnv (mkPeer 1 "a:1")).err =
        some (Error.withStack (Error.wrap (Error.other "broken pipe") "write msg to a:1")) ∧
      (SendHandshake healthyEnv (mkPeer 1 "a:1") zeroInfo).err = none ∧
      (SendTime healthyEnv (mkPeer 1 "a:1")).err = none) ∧
    (SendHandshake brokenPipeEnv (mkPeer 1 "a:1") zeroInfo).err = none ∧
    (SendHandshake brokenPipeEnv (mkPeer 1 "a:1") zeroInfo).writes =
      (WriteP2PMessage brokenPipeEnv (mkPeer 1 "a:1")
        (.Handshake (handshakeMessage brokenPipeEnv (mkPeer 1 "a:1") zeroInfo
          "EOS1111111111111111111111111111111114T1Anm"))).writes :=
  ⟨by decide,
   (SendHandshake_swallows_write_error brokenPipeEnv (mkPeer 1 "a:1")).1 zeroInfo
     "EOS1111111111111111111111111111111114T1Anm" rfl⟩

/-- C11: `WriteP2PMessage(m)` hands the encoder the packet of type `m.GetType()`
around `m` and returns a non-nil error exactly when encoding that packet fails or
the transport write fails; a failed encoding makes no write, a successful one makes
exactly one write, of exactly the encoded bytes, also when that write fails. -/
theorem WriteP2PMessage_single_write (env : SendEnv) (p : Peer) (m : Message) :
    ((WriteP2PMessage env p m).err ≠ none ↔
      ((∃ e, env.encode { Typ := m.GetType, P2PMessage := m } = .error e) ∨
        ∃ buff, env.encode { Typ := m.GetType, P2PMessage := m } = .ok buff ∧
          env.write p buff ≠ none)) ∧
    (∀ e, env.encode { Typ := m.GetType, P2PMessage := m } = .error e →
      (WriteP2PMessage env p m).writes = []) ∧
    (∀ buff, env.encode { Typ := m.GetType, P2PMessage := m } = .ok buff →
      (WriteP2PMessage env p m).writes = [buff] ∧
      ((WriteP2PMessage env p m).err ≠ none ↔ env.write p buff ≠ none)) := by
  cases henc : env.encode { Typ := m.GetType, P2PMessage := m } with
  | error e => simp [WriteP2PMessage, henc, errorsWrapf]
  | ok buff =>
    cases hw : env.write p buff with
    | none => simp [WriteP2PMessage, henc, hw]
    | some e => simp [WriteP2PMessage, henc, hw, errorsWrapf]

/-- Witness for C11: a failing encoder, a failing write and a working transport. -/
theorem WriteP2PMessage_single_write_witness :
    (WriteP2PMessage brokenEncoderEnv (mkPeer 1 "a:1") .TimeMessage =
        { err := some (Error.wrap (Error.other "short buffer") "unable to encode message msg"),
          writes := [] } ∧
      WriteP2PMessage brokenPipeEnv (mkPeer 1 "a:1") .TimeMessage =
        { err := some (Error.wrap (Error.other "broken pipe") "write msg to a:1"),
          writes := [[1, 2, 3]] } ∧
      WriteP2PMessage healthyEnv (mkPeer 1 "a:1") .TimeMessage =
        { err := none, writes := [[1, 2, 3]] }) ∧
    ((WriteP2PMessage brokenPipeEnv (mkPeer 1 "a:1") .TimeMessage).writes = [[1, 2, 3]] ∧
      ((WriteP2PMessage brokenPipeEnv (mkPeer 1 "a:1") .TimeMessage).err ≠ none ↔
        brokenPipeEnv.write (mkPeer 1 "a:1") [1, 2, 3] ≠ none)) :=
  ⟨by decide,
   (WriteP2PMessage_single_write brokenPipeEnv (mkPeer 1 "a:1") .TimeMessage).2.2 [1, 2, 3] rfl⟩

theorem occursIn_append (x a : String) : occursIn a (x ++ a) = true := by
  simp only [occursIn, List.any_eq_true, String.data_append]
  exact ⟨a.data, (List.mem_tails _ _).mpr (List.suffix_append _ _), by simp⟩

/-- C12, as stated, fails: with a failing encoder the error returned for the peer
at a:1 is wrapped with the text of the message, in which the address a:1 does not
occur. -/
theorem WriteP2PMessage_encode_error_omits_address :
    (WriteP2PMessage brokenEncoderEnv (mkPeer 1 "a:1") .TimeMessage).err =
      some (Error.wrap (Error.other "short buffer") "unable to encode message msg") ∧
    identifiesPeer (WriteP2PMessage brokenEncoderEnv (mkPeer 1 "a:1") .TimeMessage).err
      (mkPeer 1 "a:1") = false := by
  decide

/-- C12, amended: when the transport write fails, the returned error is the
write error wrapped with the context "write msg to " followed by the peer address,
which identifies the peer; when encoding fails, it is the encoder error wrapped
with "unable to encode message " followed by the printed message, so the peer
address occurs in it only if it occurs in that text. -/
theorem WriteP2PMessage_error_context (env : SendEnv) (p : Peer) (m : Message) :
    (∀ buff e, env.encode { Typ := m.GetType, P2PMessage := m } = .ok buff →
      env.write p buff = some e →
      (WriteP2PMessage env p m).err = some (Error.wrap e ("write msg to " ++ p.Address)) ∧
      identifiesPeer (WriteP2PMessage env p m).err p = true) ∧
    (∀ e, env.encode { Typ := m.GetType, P2PMessage := m } = .error e →
      (WriteP2PMessage env p m).err =
        some (Error.wrap e ("unable to encode message " ++ env.format m)) ∧
      identifiesPeer (WriteP2PMessage env p m).err p =
        occursIn p.Address ("unable to encode message " ++ env.format m)) := by
  refine ⟨?_, ?_⟩
  · intro buff e henc hw
    have herr : (WriteP2PMessage env p m).err =
        some (Error.wrap e ("write msg to " ++ p.Address)) := by
      simp [WriteP2PMessage, henc, hw, errorsWrapf]
    refine ⟨herr, ?_⟩
    rw [herr]
    simp only [identifiesPeer, Error.outerContext]
    exact occursIn_append _ _
  · intro e henc
    have herr : (WriteP2PMessage env p m).err =
        some (Error.wrap e ("unable to encode message " ++ env.format m)) := by
      simp [WriteP2PMessage, henc, errorsWrapf]
    refine ⟨herr, ?_⟩
    rw [herr]
    simp only [identifiesPeer, Error.outerContext]

/-- Witness for the amended C12: a failing write towards the peer at a:1. -/
theorem WriteP2PMessage_error_context_witness :
    (WriteP2PMessage brokenPipeEnv (mkPeer 1 "a:1") .TimeMessage).err =
      some (Error.wrap (Error.other "broken pipe") ("write msg to " ++ (mkPeer 1 "a:1").Address)) ∧
    identifiesPeer (WriteP2PMessage brokenPipeEnv (mkPeer 1 "a:1") .TimeMessage).err
      (mkPeer 1 "a:1") = true :=
  (WriteP2PMessage_error_context brokenPipeEnv (mkPeer 1 "a:1") .TimeMessage).1 [1, 2, 3]
    (Error.other "broken pipe") rfl rfl

/-- C13: `onPeerErrorMsg` forwards exactly one ErrPeer event, carrying the sender and
the error of the message, when the error is non-nil and its root cause is
`io.EOF`, and forwards nothing for a nil error or any other root cause; the same
holds for an Error message received by the dispatch loop while it is not stopped.
The handler registry, like every field but the trace, is unchanged. -/
theorem onPeerErrorMsg_forwards_iff_eof (c : Client) (r : envelopMsg) :
    ((∃ e, r.err = some e ∧ e.Cause = Error.EOF) →
      onPeerErrorMsg c r = c.emit (Event.peerChanSend (forwardedErrPeer r)) ∧
      peerChanSends (onPeerErrorMsg c r).trace = peerChanSends c.trace ++ [forwardedErrPeer r]) ∧
    ((∀ e, r.err = some e → e.Cause ≠ Error.EOF) → onPeerErrorMsg c r = c) ∧
    (onPeerErrorMsg c r).handlers = c.handlers ∧
    (∀ s : LoopState, s.returned = false → s.isStopped = false →
      r.typ = .envelopMsgError →
      peerLoopStep s (.recv r) = some { s with c := onPeerErrorMsg s.c r }) := by
  have hsends : ∀ (xs : List Event) (m : peerMsg),
      peerChanSends (xs ++ [Event.peerChanSend m]) = peerChanSends xs ++ [m] := by
    intro xs m
    induction xs with
    | nil => simp [peerChanSends]
    | cons e rest ih => cases e <;> simp [peerChanSends, ih]
  refine ⟨?_, ?_, onPeerErrorMsg_handlers c r, ?_⟩
  · rintro ⟨e, he, hcause⟩
    have hrun : onPeerErrorMsg c r = c.emit (Event.peerChanSend (forwardedErrPeer r)) := by
      simp [onPeerErrorMsg, he, hcause, forwardedErrPeer]
    refine ⟨hrun, ?_⟩
    rw [hrun]
    exact hsends _ _
  · intro hne
    unfold onPeerErrorMsg
    cases he : r.err with
    | none => rfl
    | some e => simp [hne e he]
  · intro s hret hstop htyp
    simp [peerLoopStep, hret, hstop, htyp]

/-- Witness for C13: an EOF wrapped twice is forwarded, a timeout is not. -/
theorem onPeerErrorMsg_forwards_iff_eof_witness :
    (onPeerErrorMsg threePeers (newEnvelopMsgWithError (some (mkPeer 1 "a:1"))
        (some (Error.other "i/o timeout"))) = threePeers ∧
      onPeerErrorMsg threePeers (newEnvelopMsgWithError (some (mkPeer 1 "a:1")) none) =
        threePeers) ∧
    (onPeerErrorMsg threePeers (newEnvelopMsgWithError (some (mkPeer 1 "a:1"))
        (some (Error.withStack (Error.wrap Error.EOF "read")))) =
      threePeers.emit (Event.peerChanSend (forwardedErrPeer
        (newEnvelopMsgWithError (some (mkPeer 1 "a:1"))
          (some (Error.withStack (Error.wrap Error.EOF "read")))))) ∧
    peerChanSends (onPeerErrorMsg threePeers (newEnvelopMsgWithError (some (mkPeer 1 "a:1"))
        (some (Error.withStack (Error.wrap Error.EOF "read"))))).trace =
      peerChanSends threePeers.trace ++ [forwardedErrPeer
        (newEnvelopMsgWithError (some (mkPeer 1 "a:1"))
          (some (Error.withStack (Error.wrap Error.EOF "read"))))]) :=
  ⟨by decide,
   (onPeerErrorMsg_forwards_iff_eof threePeers (newEnvelopMsgWithError (some (mkPeer 1 "a:1"))
      (some (Error.withStack (Error.wrap Error.EOF "read"))))).1
     ⟨Error.withStack (Error.wrap Error.EOF "read"), rfl, rfl⟩⟩

theorem peerChanSends_append (xs ys : List Event) :
    peerChanSends (xs ++ ys) = peerChanSends xs ++ peerChanSends ys := by
  induction xs with
  | nil => simp [peerChanSends]
  | cons e rest ih => cases e <;> simp [peerChanSends, ih]

/-- C14: for a tracked peer p whose `Start` fails with e, `StartPeer(p)` calls `Start`
once, puts exactly one ErrPeer message for p, carrying e wrapped, on the lifecycle
mailbox, returns e, and leaves the table (so the status of p's entry) and
`currentSyncPeer` as they were; for a peer whose address has no entry it returns
nil with no `Start` call and no message, whatever `Start` would have answered. -/
theorem StartPeer_failure_and_untracked (c : Client) (p : Peer) :
    (∀ (entry : peerStatus) (e : Error), psLookup c.ps p.Address = some entry →
      ∃ c1, StartPeer c (some p) (some e) = some (c1, some e) ∧
        c1.trace = c.trace ++
          [Event.StartPeer p, Event.Start p, Event.peerChanSend (connectErrMsg p e)] ∧
        peerChanSends c1.trace = peerChanSends c.trace ++ [connectErrMsg p e] ∧
        connectErrMsg p e =
          { msgTyp := .peerMsgErrPeer, peer := some p, cfg := none,
            err := some (Error.wrap e "connect error") } ∧
        c1.ps = c.ps ∧ psLookup c1.ps p.Address = some entry ∧
        c1.currentSyncPeer = c.currentSyncPeer ∧ c1.needSync = c.needSync ∧
        c1.handlers = c.handlers) ∧
    (psLookup c.ps p.Address = none → ∀ se : Option Error,
      ∃ c1, StartPeer c (some p) se = some (c1, none) ∧
        c1 = c.emit (Event.StartPeer p) ∧
        (∀ q, Event.Start q ∉ [Event.StartPeer p]) ∧
        peerChanSends c1.trace = peerChanSends c.trace) := by
  refine ⟨?_, ?_⟩
  · intro entry e hl
    refine ⟨_, StartPeer_tracked_fail c p e entry hl, rfl, ?_, rfl, rfl, hl, rfl, rfl, rfl⟩
    simp [peerChanSends_append, peerChanSends]
  · intro hl se
    refine ⟨c.emit (Event.StartPeer p), ?_, rfl, by simp, ?_⟩
    · simp [StartPeer, Client.emit, hl]
    · simp [Client.emit, peerChanSends_append, peerChanSends]

/-- Witness for C14: the tracked peer at a:1 is refused; a peer at z:9 is unknown. -/
theorem StartPeer_failure_and_untracked_witness :
    (StartPeer threePeers (some (mkPeer 9 "z:9")) (some (Error.other "refused")) =
      some (threePeers.emit (Event.StartPeer (mkPeer 9 "z:9")), none)) ∧
    ∃ c1, StartPeer threePeers (some (mkPeer 1 "a:1")) (some (Error.other "refused")) =
        some (c1, some (Error.other "refused")) ∧
      c1.trace = threePeers.trace ++
        [Event.StartPeer (mkPeer 1 "a:1"), Event.Start (mkPeer 1 "a:1"),
          Event.peerChanSend (connectErrMsg (mkPeer 1 "a:1") (Error.other "refused"))] ∧
      peerChanSends c1.trace = peerChanSends threePeers.trace ++
        [connectErrMsg (mkPeer 1 "a:1") (Error.other "refused")] ∧
      connectErrMsg (mkPeer 1 "a:1") (Error.other "refused") =
        { msgTyp := .peerMsgErrPeer, peer := some (mkPeer 1 "a:1"), cfg := none,
          err := some (Error.wrap (Error.other "refused") "connect error") } ∧
      c1.ps = threePeers.ps ∧
      psLookup c1.ps (mkPeer 1 "a:1").Address =
        some { peer := some (mkPeer 1 "a:1"), status := .peerStatInit, cfg := some ⟨"a:1"⟩ } ∧
      c1.currentSyncPeer = threePeers.currentSyncPeer ∧ c1.needSync = threePeers.needSync ∧
      c1.handlers = threePeers.handlers :=
  ⟨by decide,
   (StartPeer_failure_and_untracked threePeers (mkPeer 1 "a:1")).1
     { peer := some (mkPeer 1 "a:1"), status := .peerStatInit, cfg := some ⟨"a:1"⟩ }
     (Error.other "refused") rfl⟩

/-- C15: AddHandler is idempotent: `onAddHandlerMsg(h)` returns, and applying it to
its own result returns that result again. -/
theorem onAddHandlerMsg_idempotent (c : Client) (h : Handler) :
    ∃ c1, onAddHandlerMsg c (newHandlerAddMsg (some h)) = some c1 ∧
      onAddHandlerMsg c1 (newHandlerAddMsg (some h)) = some c1 := by
  by_cases hex : ∃ x ∈ c.handlers, x.Name = h.Name
  · obtain ⟨pre, x, post, h1, h2, h3⟩ := exists_first_named h.Name c.handlers hex
    refine ⟨{ c with handlers := pre ++ h :: post },
      onAddHandlerMsg_split c h x pre post h1 h2 h3, ?_⟩
    exact onAddHandlerMsg_split { c with handlers := pre ++ h :: post } h h pre post rfl rfl h3
  · have hno : ∀ y ∈ c.handlers, y.Name ≠ h.Name := fun y hy hn => hex ⟨y, hy, hn⟩
    refine ⟨{ c with handlers := c.handlers ++ [h] }, onAddHandlerMsg_fresh c h hno, ?_⟩
    exact onAddHandlerMsg_split { c with handlers := c.handlers ++ [h] } h h c.handlers []
      rfl rfl hno

/-- C16, as stated, fails: for startBlock 1 and endBlock 2 the message handed to
`WriteP2PMessage` has the same mode tag in both sub-ranges but pending count 1 in
`ReqTrx` and 2 in `ReqBlocks`. -/
theorem SendRequest_pending_counts_differ :
    (1 < 2 ^ 32 ∧ 2 < 2 ^ 32) ∧
    ∃ trx blocks, requestMessage 1 2 = Message.RequestMessage trx blocks ∧
      (∀ (env : SendEnv) (p : Peer), SendRequest env p 1 2 =
        { err := errorsWithStack (WriteP2PMessage env p (Message.RequestMessage trx blocks)).err,
          writes := (WriteP2PMessage env p (Message.RequestMessage trx blocks)).writes }) ∧
      trx.Mode = [0, 0, 0, 0] ∧ blocks.Mode = [0, 0, 0, 0] ∧
      trx.Pending = 1 ∧ blocks.Pending = 2 ∧ trx.Pending ≠ blocks.Pending :=
  ⟨by decide, { Mode := [0, 0, 0, 0], Pending := 1 }, { Mode := [0, 0, 0, 0], Pending := 2 },
    rfl, fun _ _ => rfl, rfl, rfl, rfl, rfl, by decide⟩

/-- C16, amended: `SendRequest(startBlock, endBlock)` hands `WriteP2PMessage` a
`RequestMessage` whose `ReqTrx` and `ReqBlocks` both carry the mode tag {0,0,0,0};
`ReqTrx` carries the pending count startBlock and `ReqBlocks` the pending count
endBlock, so the two counts agree exactly when startBlock equals endBlock. -/
theorem SendRequest_ordered_ranges (env : SendEnv) (p : Peer) (startBlock endBlock : Nat) :
    ∃ trx blocks,
      SendRequest env p startBlock endBlock =
        { err := errorsWithStack (WriteP2PMessage env p (Message.RequestMessage trx blocks)).err,
          writes := (WriteP2PMessage env p (Message.RequestMessage trx blocks)).writes } ∧
      trx.Mode = [0, 0, 0, 0] ∧ blocks.Mode = [0, 0, 0, 0] ∧
      trx.Pending = startBlock ∧ blocks.Pending = endBlock ∧
      (trx.Pending = blocks.Pending ↔ startBlock = endBlock) := by
  refine ⟨{ Mode := [0, 0, 0, 0], Pending := startBlock },
    { Mode := [0, 0, 0, 0], Pending := endBlock }, rfl, rfl, rfl, rfl, rfl, ?_⟩
  exact Iff.rfl

/-! ## The dispatch loop after cancellation -/

theorem quiet_sends_nil (evs : List Event) (hq : ∀ e ∈ evs, e.quiet = true) :
    peerChanSends evs = [] := by
  induction evs with
  | nil => rfl
  | cons e rest ih =>
    have he : e.quiet = true := hq e (by simp)
    have hrest : peerChanSends rest = [] := ih (fun x hx => hq x (by simp [hx]))
    cases e <;> first | exact hrest | exact absurd he (by simp [Event.quiet])

theorem quiet_events_neutral (t evs : List Event) (hq : ∀ e ∈ evs, e.quiet = true) :
    peerChanSends (t ++ evs) = peerChanSends t ∧
    closeAllCount (t ++ evs) = closeAllCount t ∧
    closeChanCount (t ++ evs) = closeChanCount t := by
  refine ⟨?_, ?_, ?_⟩
  · rw [peerChanSends_append, quiet_sends_nil evs hq, List.append_nil]
  · have hzero : evs.countP (fun e => decide (e = Event.closeAllPeer)) = 0 := by
      rw [List.countP_eq_zero]
      intro e he hdec
      have hEq : e = Event.closeAllPeer := by simpa using hdec
      have := hq e he
      rw [hEq] at this
      simp [Event.quiet] at this
    simp only [closeAllCount, List.countP_append, hzero, Nat.add_zero]
  · have hzero : evs.countP (fun e => decide (e = Event.closePacketChan)) = 0 := by
      rw [List.countP_eq_zero]
      intro e he hdec
      have hEq : e = Event.closePacketChan := by simpa using hdec
      have := hq e he
      rw [hEq] at this
      simp [Event.quiet] at this
    simp only [closeChanCount, List.countP_append, hzero, Nat.add_zero]

/-- One iteration of a stopped dispatch loop adds only quiet events and stays
stopped. -/
theorem peerLoopStep_stopped (s s1 : LoopState) (i : LoopInput) (hstop : s.isStopped = true)
    (hstep : peerLoopStep s i = some s1) :
    s1.isStopped = true ∧
    ∃ evs, s1.c.trace = s.c.trace ++ evs ∧ ∀ e ∈ evs, e.quiet = true := by
  unfold peerLoopStep at hstep
  by_cases hret : s.returned = true
  · simp [hret] at hstep; subst hstep; exact ⟨hstop, [], by simp, by simp⟩
  · simp only [hret, Bool.false_eq_true, if_false] at hstep
    cases i with
    | recvClosed => simp at hstep; subst hstep; exact ⟨hstop, [], by simp, by simp⟩
    | ctxDone => simp [hstop] at hstep; subst hstep; exact ⟨hstop, [], by simp, by simp⟩
    | recv r =>
      rcases r with ⟨typ, sender, packet, handler, err⟩
      cases typ with
      | envelopMsgAddHandler =>
        simp only [Option.map_eq_some'] at hstep
        obtain ⟨c1, hc1, rfl⟩ := hstep
        refine ⟨hstop, [], ?_, by simp⟩
        cases handler with
        | none => simp [onAddHandlerMsg] at hc1
        | some h =>
          simp only [onAddHandlerMsg] at hc1
          cases hf : findHandler h.Name s.c.handlers 0 <;> simp [hf] at hc1 <;> subst hc1 <;> simp
      | envelopMsgDelHandler =>
        simp only [Option.map_eq_some'] at hstep
        obtain ⟨c1, hc1, rfl⟩ := hstep
        refine ⟨hstop, [], ?_, by simp⟩
        cases handler with
        | none => simp [onDelHandlerMsg] at hc1
        | some h =>
          simp only [onDelHandlerMsg] at hc1
          cases hf : findHandler h.Name s.c.handlers 0 <;> simp [hf] at hc1 <;> subst hc1 <;> simp
      | envelopMsgStartSync =>
        simp at hstep; subst hstep
        exact ⟨hstop, [Event.onStartSyncIrreversible sender], by simp [Client.emit],
          by simp [Event.quiet]⟩
      | envelopMsgError => simp [hstop] at hstep; subst hstep; exact ⟨hstop, [], by simp, by simp⟩
      | envelopMsgPacket =>
        simp at hstep; subst hstep
        refine ⟨hstop, Event.syncHandle { Sender := sender, Packet := packet } ::
          s.c.handlers.map (fun h => Event.handle h { Sender := sender, Packet := packet }),
          by simp [onPacketMsg, handleAll_trace, Client.emit], ?_⟩
        intro e he
        simp only [List.mem_cons, List.mem_map] at he
        rcases he with rfl | ⟨h, _, rfl⟩ <;> rfl
      | envelopMsgNil => simp at hstep; subst hstep; exact ⟨hstop, [], by simp, by simp⟩
      | envelopMsgSyncSuccess => simp at hstep; subst hstep; exact ⟨hstop, [], by simp, by simp⟩

theorem peerLoopRun_stopped (inputs : List LoopInput) :
    ∀ (s s1 : LoopState), s.isStopped = true → peerLoopRun s inputs = some s1 →
      s1.isStopped = true ∧ peerChanSends s1.c.trace = peerChanSends s.c.trace ∧
      closeAllCount s1.c.trace = closeAllCount s.c.trace ∧
      closeChanCount s1.c.trace = closeChanCount s.c.trace := by
  induction inputs with
  | nil =>
    intro s s1 hstop hrun
    simp only [peerLoopRun, Option.some.injEq] at hrun
    subst hrun; exact ⟨hstop, rfl, rfl, rfl⟩
  | cons i rest ih =>
    intro s s1 hstop hrun
    simp only [peerLoopRun] at hrun
    cases hstep : peerLoopStep s i with
    | none => simp [hstep] at hrun
    | some s2 =>
      simp only [hstep] at hrun
      obtain ⟨hstop2, evs, htrace, hq⟩ := peerLoopStep_stopped s s2 i hstop hstep
      obtain ⟨h1, h2, h3, h4⟩ := ih s2 s1 hstop2 hrun
      obtain ⟨q1, q2, q3⟩ := quiet_events_neutral s.c.trace evs hq
      rw [htrace] at h2 h3 h4
      exact ⟨h1, by rw [h2, q1], by rw [h3, q2], by rw [h4, q3]⟩

theorem no_close_events_neutral (t evs : List Event)
    (hq : ∀ e ∈ evs, e ≠ Event.closeAllPeer ∧ e ≠ Event.closePacketChan) :
    closeAllCount (t ++ evs) = closeAllCount t ∧
    closeChanCount (t ++ evs) = closeChanCount t := by
  refine ⟨?_, ?_⟩
  · have hzero : evs.countP (fun e => decide (e = Event.closeAllPeer)) = 0 := by
      rw [List.countP_eq_zero]
      intro e he hdec
      exact (hq e he).1 (by simpa using hdec)
    simp only [closeAllCount, List.countP_append, hzero, Nat.add_zero]
  · have hzero : evs.countP (fun e => decide (e = Event.closePacketChan)) = 0 := by
      rw [List.countP_eq_zero]
      intro e he hdec
      exact (hq e he).2 (by simpa using hdec)
    simp only [closeChanCount, List.countP_append, hzero, Nat.add_zero]

/-- One iteration of the dispatch loop either keeps `isStopped` and performs no
shutdown action, or is the first observation of cancellation and performs each
shutdown action once. -/
theorem peerLoopStep_shutdown (s s1 : LoopState) (i : LoopInput)
    (hstep : peerLoopStep s i = some s1) :
    (s1.isStopped = s.isStopped ∧ closeAllCount s1.c.trace = closeAllCount s.c.trace ∧
      closeChanCount s1.c.trace = closeChanCount s.c.trace) ∨
    (s.isStopped = false ∧ s1.isStopped = true ∧
      closeAllCount s1.c.trace = closeAllCount s.c.trace + 1 ∧
      closeChanCount s1.c.trace = closeChanCount s.c.trace + 1) := by
  by_cases hstop : s.isStopped = true
  · obtain ⟨h1, evs, htrace, hq⟩ := peerLoopStep_stopped s s1 i hstop hstep
    obtain ⟨_, q2, q3⟩ := quiet_events_neutral s.c.trace evs hq
    exact Or.inl ⟨by rw [h1, hstop], by rw [htrace, q2], by rw [htrace, q3]⟩
  · have hstop0 : s.isStopped = false := by simpa using hstop
    unfold peerLoopStep at hstep
    by_cases hret : s.returned = true
    · simp [hret] at hstep; subst hstep; exact Or.inl ⟨rfl, rfl, rfl⟩
    · simp only [hret, Bool.false_eq_true, if_false] at hstep
      cases i with
      | recvClosed => simp at hstep; subst hstep; exact Or.inl ⟨rfl, rfl, rfl⟩
      | ctxDone =>
        simp [hstop0] at hstep; subst hstep
        refine Or.inr ⟨hstop0, rfl, ?_, ?_⟩
        · simp [closeAllCount, Client.emit, List.countP_append, List.countP_cons]
        · simp [closeChanCount, Client.emit, List.countP_append, List.countP_cons]
      | recv r =>
        have hkeep : ∀ evs : List Event, s1.isStopped = s.isStopped →
            s1.c.trace = s.c.trace ++ evs →
            (∀ e ∈ evs, e ≠ Event.closeAllPeer ∧ e ≠ Event.closePacketChan) →
            (s1.isStopped = s.isStopped ∧ closeAllCount s1.c.trace = closeAllCount s.c.trace ∧
              closeChanCount s1.c.trace = closeChanCount s.c.trace) ∨
            (s.isStopped = false ∧ s1.isStopped = true ∧
              closeAllCount s1.c.trace = closeAllCount s.c.trace + 1 ∧
              closeChanCount s1.c.trace = closeChanCount s.c.trace + 1) := by
          intro evs h1 h2 h3
          obtain ⟨q2, q3⟩ := no_close_events_neutral s.c.trace evs h3
          exact Or.inl ⟨h1, by rw [h2, q2], by rw [h2, q3]⟩
        rcases r with ⟨typ, sender, packet, handler, err⟩
        cases typ with
        | envelopMsgAddHandler =>
          simp only [Option.map_eq_some'] at hstep
          obtain ⟨c1, hc1, rfl⟩ := hstep
          refine hkeep [] rfl ?_ (by simp)
          cases handler with
          | none => simp [onAddHandlerMsg] at hc1
          | some h =>
            simp only [onAddHandlerMsg] at hc1
            cases hf : findHandler h.Name s.c.handlers 0 <;> simp [hf] at hc1 <;>
              subst hc1 <;> simp
        | envelopMsgDelHandler =>
          simp only [Option.map_eq_some'] at hstep
          obtain ⟨c1, hc1, rfl⟩ := hstep
          refine hkeep [] rfl ?_ (by simp)
          cases handler with
          | none => simp [onDelHandlerMsg] at hc1
          | some h =>
            simp only [onDelHandlerMsg] at hc1
            cases hf : findHandler h.Name s.c.handlers 0 <;> simp [hf] at hc1 <;>
              subst hc1 <;> simp
        | envelopMsgStartSync =>
          simp at hstep; subst hstep
          exact hkeep [Event.onStartSyncIrreversible sender] rfl (by simp [Client.emit])
            (by simp)
        | envelopMsgError =>
          simp [hstop0] at hstep; subst hstep
          cases err with
          | none => exact hkeep [] hstop0.symm (by simp [onPeerErrorMsg]) (by simp)
          | some e =>
            by_cases hc : e.Cause = Error.EOF
            · exact hkeep [Event.peerChanSend
                  { err := some e, peer := sender, msgTyp := .peerMsgErrPeer, cfg := none }]
                hstop0.symm (by simp [onPeerErrorMsg, hc, Client.emit]) (by simp)
            · exact hkeep [] hstop0.symm (by simp [onPeerErrorMsg, hc]) (by simp)
        | envelopMsgPacket =>
          simp at hstep; subst hstep
          refine hkeep (Event.syncHandle { Sender := sender, Packet := packet } ::
            s.c.handlers.map (fun h => Event.handle h { Sender := sender, Packet := packet }))
            rfl (by simp [onPacketMsg, handleAll_trace, Client.emit]) ?_
          intro e he
          simp only [List.mem_cons, List.mem_map] at he
          rcases he with rfl | ⟨h, _, rfl⟩ <;> simp
        | envelopMsgNil => simp at hstep; subst hstep; exact Or.inl ⟨rfl, rfl, rfl⟩
        | envelopMsgSyncSuccess => simp at hstep; subst hstep; exact Or.inl ⟨rfl, rfl, rfl⟩

theorem peerLoopRun_shutdown_once (inputs : List LoopInput) :
    ∀ (s s1 : LoopState), peerLoopRun s inputs = some s1 →
      closeAllCount s1.c.trace + (if s1.isStopped then 0 else 1) =
        closeAllCount s.c.trace + (if s.isStopped then 0 else 1) ∧
      closeChanCount s1.c.trace + (if s1.isStopped then 0 else 1) =
        closeChanCount s.c.trace + (if s.isStopped then 0 else 1) := by
  induction inputs with
  | nil =>
    intro s s1 hrun
    simp only [peerLoopRun, Option.some.injEq] at hrun
    subst hrun; exact ⟨rfl, rfl⟩
  | cons i rest ih =>
    intro s s1 hrun
    simp only [peerLoopRun] at hrun
    cases hstep : peerLoopStep s i with
    | none => simp [hstep] at hrun
    | some s2 =>
      simp only [hstep] at hrun
      obtain ⟨h1, h2⟩ := ih s2 s1 hrun
      rcases peerLoopStep_shutdown s s2 i hstep with ⟨k1, k2, k3⟩ | ⟨k0, k1, k2, k3⟩
      · rw [h1, h2, k1, k2, k3]; exact ⟨rfl, rfl⟩
      · rw [h1, h2, k0, k1, k2, k3]; simp

/-- C17: the first cancellation a running dispatch loop observes sets `isStopped` and
performs `closeAllPeer` and the mailbox close once. From then on every Error
message, also one caused by `io.EOF`, leaves the loop state as it is, no run of
the stopped loop puts anything on the peer lifecycle mailbox or repeats a shutdown
action, and along any run at all `closeAllPeer` and the mailbox close happen at
most once more than before it. -/
theorem stopped_loop_drops_errors (s : LoopState) :
    (s.returned = false → s.isStopped = false →
      ∃ s1, peerLoopStep s .ctxDone = some s1 ∧ s1.isStopped = true ∧
        s1.c.trace = s.c.trace ++ [Event.closeAllPeer, Event.closePacketChan]) ∧
    (s.isStopped = true → ∀ r : envelopMsg, r.typ = .envelopMsgError →
      peerLoopStep s (.recv r) = some s) ∧
    (s.isStopped = true → ∀ (inputs : List LoopInput) (s1 : LoopState),
      peerLoopRun s inputs = some s1 →
      s1.isStopped = true ∧ peerChanSends s1.c.trace = peerChanSends s.c.trace ∧
      closeAllCount s1.c.trace = closeAllCount s.c.trace ∧
      closeChanCount s1.c.trace = closeChanCount s.c.trace) ∧
    (∀ (inputs : List LoopInput) (s1 : LoopState), peerLoopRun s inputs = some s1 →
      closeAllCount s1.c.trace ≤ closeAllCount s.c.trace + 1 ∧
      closeChanCount s1.c.trace ≤ closeChanCount s.c.trace + 1) := by
  refine ⟨?_, ?_, ?_, ?_⟩
  · intro hret hstop
    refine ⟨{ s with isStopped := true, chanClosed := true,
                     c := (s.c.emit .closeAllPeer).emit .closePacketChan }, ?_, rfl, ?_⟩
    · simp [peerLoopStep, hret, hstop]
    · simp [Client.emit]
  · intro hstop r htyp
    by_cases hret : s.returned = true
    · simp [peerLoopStep, hret]
    · simp [peerLoopStep, hret, htyp, hstop]
  · intro hstop inputs s1 hrun
    exact peerLoopRun_stopped inputs s s1 hstop hrun
  · intro inputs s1 hrun
    obtain ⟨h1, h2⟩ := peerLoopRun_shutdown_once inputs s s1 hrun
    constructor
    · have : closeAllCount s1.c.trace ≤
          closeAllCount s.c.trace + (if s.isStopped then 0 else 1) := by
        rw [← h1]; exact Nat.le_add_right _ _
      split at this <;> omega
    · have : closeChanCount s1.c.trace ≤
          closeChanCount s.c.trace + (if s.isStopped then 0 else 1) := by
        rw [← h2]; exact Nat.le_add_right _ _
      split at this <;> omega

/-- Witness for C17: a running loop forwards the EOF of a:1; after cancellation the
same message, a second cancellation and another EOF add nothing to the two
shutdown actions. -/
theorem stopped_loop_drops_errors_witness :
    ((peerLoopRun (LoopState.init threePeers) [.recv eofFromA]).map
        (fun s1 => s1.c.trace) =
      some [Event.peerChanSend (forwardedErrPeer eofFromA)] ∧
     (peerLoopRun (LoopState.init threePeers)
        [.ctxDone, .recv eofFromA, .ctxDone, .recv eofFromA]).map (fun s1 => s1.c.trace) =
      some [Event.closeAllPeer, Event.closePacketChan]) ∧
    ∀ r : envelopMsg, r.typ = .envelopMsgError →
      peerLoopStep { LoopState.init threePeers with isStopped := true } (.recv r) =
        some { LoopState.init threePeers with isStopped := true } :=
  ⟨by decide,
   (stopped_loop_drops_errors { LoopState.init threePeers with isStopped := true }).2.1 rfl⟩

/-! ## Deletion of a peer -/

/-- C18: when address A has an entry (with a peer to close), `onDelPeer` sets the
status of that entry to `Closed`, calls `ClosePeer` and then `Wait` on the entry's
peer, once each, and leaves the entry's peer and cfg, every other entry,
`currentSyncPeer` and the rest of the client unchanged; when A has no entry,
`onDelPeer` returns the client as it was and closes no peer. -/
theorem onDelPeer_effects (c : Client) (msg : peerMsg) (cfg : PeerCfg)
    (hcfg : msg.cfg = some cfg) :
    (∀ (e : peerStatus) (q : Peer), psLookup c.ps cfg.Address = some e → e.peer = some q →
      ∃ c1, onDelPeer c msg = some c1 ∧
        psLookup c1.ps cfg.Address =
          some { peer := e.peer, status := .peerStatClosed, cfg := e.cfg } ∧
        c1.trace = c.trace ++ [Event.ClosePeer q, Event.Wait q] ∧
        (∀ b, b ≠ cfg.Address → psLookup c1.ps b = psLookup c.ps b) ∧
        c1.currentSyncPeer = c.currentSyncPeer ∧ c1.needSync = c.needSync ∧
        c1.handlers = c.handlers) ∧
    (psLookup c.ps cfg.Address = none → onDelPeer c msg = some c) := by
  refine ⟨?_, ?_⟩
  · intro e q hl hq
    refine ⟨(({ c with ps := psSetStatus c.ps cfg.Address .peerStatClosed } : Client).emit
        (Event.ClosePeer q)).emit (Event.Wait q), ?_, ?_, ?_, ?_, rfl, rfl, rfl⟩
    · simp [onDelPeer, hcfg, hl, hq]
    · simp [Client.emit, psLookup_setStatus, hl]
    · simp [Client.emit]
    · intro b hb
      simp only [Client.emit, psLookup_setStatus]
      rw [if_neg (fun h => hb h.symm)]
  · intro hl
    simp [onDelPeer, hcfg, hl]

/-- Witness for C18: deleting b:2 from three tracked peers, and deleting the
unknown z:9. -/
theorem onDelPeer_effects_witness :
    (onDelPeer threePeers (Client.DelPeerByAddressMsg "b:2") =
        some { closedPeerB with
          trace := [Event.ClosePeer (mkPeer 2 "b:2"), Event.Wait (mkPeer 2 "b:2")] } ∧
      onDelPeer threePeers (Client.DelPeerByAddressMsg "z:9") = some threePeers) ∧
    ∃ c1, onDelPeer threePeers (Client.DelPeerByAddressMsg "b:2") = some c1 ∧
      psLookup c1.ps "b:2" =
        some { peer := some (mkPeer 2 "b:2"), status := .peerStatClosed, cfg := some ⟨"b:2"⟩ } ∧
      c1.trace = threePeers.trace ++
        [Event.ClosePeer (mkPeer 2 "b:2"), Event.Wait (mkPeer 2 "b:2")] ∧
      (∀ b, b ≠ "b:2" → psLookup c1.ps b = psLookup threePeers.ps b) ∧
      c1.currentSyncPeer = threePeers.currentSyncPeer ∧ c1.needSync = threePeers.needSync ∧
      c1.handlers = threePeers.handlers :=
  ⟨by decide,
   (onDelPeer_effects threePeers (Client.DelPeerByAddressMsg "b:2") ⟨"b:2"⟩ rfl).1
     { peer := some (mkPeer 2 "b:2"), status := .peerStatInit, cfg := some ⟨"b:2"⟩ }
     (mkPeer 2 "b:2") rfl rfl⟩

/-- C19 does not hold of the code. For the message the public `Client.NewPeer`
enqueues (its `peer` is nil) and an untracked address, a constructor error makes
`onNewPeer` read `msg.peer.Address` and fault; and had the message carried a peer,
a nil constructed peer would be stored in the table and handed to `StartPeer`,
which faults reading its address. -/
theorem onNewPeer_ctor_error_faults :
    onNewPeer threePeers (Client.NewPeerMsg (some ⟨"d:4"⟩))
      (none, some (Error.other "dial config")) none = none ∧
    (∀ (c : Client) (cfg : PeerCfg) (np : Option Peer) (err : Error) (se : Option Error),
      psLookup c.ps cfg.Address = none →
      onNewPeer c (Client.NewPeerMsg (some cfg)) (np, some err) se = none) ∧
    (∀ (c : Client) (cfg : PeerCfg) (sender : Peer) (err : Option Error) (se : Option Error),
      psLookup c.ps cfg.Address = none →
      onNewPeer c { Client.NewPeerMsg (some cfg) with peer := some sender } (none, err) se =
        none) := by
  refine ⟨by decide, ?_, ?_⟩
  · intro c cfg np err se hl
    simp [onNewPeer, Client.NewPeerMsg, hl]
  · intro c cfg sender err se hl
    simp [onNewPeer, Client.NewPeerMsg, hl, StartPeer]

/-! ## Addresses stay in the table -/

theorem tracked_insert (ps : List (String × peerStatus)) (a b : String) (v : peerStatus)
    (h : psLookup ps b ≠ none) : psLookup (psInsert ps a v) b ≠ none := by
  rw [psLookup_insert]
  by_cases hab : a = b <;> simp [hab, h]

/-- A returning `StartPeer` removes no entry, and every `Start` it makes is on the
peer it was called for. -/
theorem StartPeer_tracked_mono (c c1 : Client) (p : Peer) (se r : Option Error)
    (h : StartPeer c (some p) se = some (c1, r)) :
    (∀ a, psLookup c.ps a ≠ none → psLookup c1.ps a ≠ none) ∧
    ∃ evs, c1.trace = c.trace ++ Event.StartPeer p :: evs ∧
      ∀ q, Event.Start q ∈ evs → q = p := by
  unfold StartPeer at h
  simp only [Client.emit] at h
  cases hl : psLookup c.ps p.Address with
  | none =>
    simp only [hl] at h
    cases h
    exact ⟨fun _ ha => ha, [], rfl, by simp⟩
  | some e =>
    simp only [hl] at h
    cases se with
    | some err =>
      simp only [Option.some.injEq, Prod.mk.injEq] at h
      obtain ⟨rfl, _⟩ := h
      refine ⟨fun _ ha => ha, [Event.Start p, Event.peerChanSend (connectErrMsg p err)],
        by simp, ?_⟩
      intro q hq
      simp only [List.mem_cons, Event.Start.injEq] at hq
      rcases hq with hq | hq | hq
      · exact hq
      · cases hq
      · simp at hq
    | none =>
      simp only [startSyncIrr, Client.emit] at h
      split at h
      · simp only [Option.some.injEq, Prod.mk.injEq] at h
        obtain ⟨rfl, _⟩ := h
        refine ⟨fun a ha => tracked_setStatus _ _ _ _ ha,
          [Event.Start p, Event.startSyncIrr p], by simp, ?_⟩
        intro q hq
        simp only [List.mem_cons, Event.Start.injEq] at hq
        rcases hq with hq | hq | hq
        · exact hq
        · cases hq
        · simp at hq
      · simp only [Option.some.injEq, Prod.mk.injEq] at h
        obtain ⟨rfl, _⟩ := h
        refine ⟨fun a ha => tracked_setStatus _ _ _ _ ha, [Event.Start p], by simp, ?_⟩
        intro q hq
        simp only [List.mem_cons, Event.Start.injEq] at hq
        rcases hq with hq | hq
        · exact hq
        · simp at hq

/-- One lifecycle message (NewPeer, DelPeer or ErrPeer) removes no entry from the
table, and every `Start` it makes happens inside a `StartPeer` for the same peer. -/
theorem peerMngDispatch_tracked_mono (osf : Client → peerMsg → Option Client) (c c1 : Client)
    (msg : peerMsg) (o : Oracle) (htyp : msg.msgTyp ≠ .peerSyncFinished)
    (h : peerMngDispatch osf c msg o = some c1) :
    (∀ a, psLookup c.ps a ≠ none → psLookup c1.ps a ≠ none) ∧
    ∃ evs, c1.trace = c.trace ++ evs ∧
      ∀ q, Event.Start q ∈ evs → Event.StartPeer q ∈ evs := by
  have hnoop : c1 = c → (∀ a, psLookup c.ps a ≠ none → psLookup c1.ps a ≠ none) ∧
      ∃ evs, c1.trace = c.trace ++ evs ∧
        ∀ q, Event.Start q ∈ evs → Event.StartPeer q ∈ evs := by
    intro hEq; subst hEq
    exact ⟨fun _ ha => ha, [], by simp, by simp⟩
  unfold peerMngDispatch at h
  cases hty : msg.msgTyp with
  | peerSyncFinished => exact absurd hty htyp
  | peerMsgNewPeer =>
    simp only [hty, onNewPeer] at h
    cases hcfg : msg.cfg with
    | none => simp [hcfg] at h
    | some cfg =>
      simp only [hcfg] at h
      cases hl : psLookup c.ps cfg.Address with
      | some e0 => simp only [hl, Option.some.injEq] at h; exact hnoop h.symm
      | none =>
        simp only [hl] at h
        split at h
        · simp at h
        · cases hnp : o.newPeer.1 with
          | none => simp [hnp, StartPeer] at h
          | some p =>
            simp only [hnp, Option.map_eq_some', Prod.exists, exists_and_right,
              exists_eq_right] at h
            obtain ⟨r, hsp⟩ := h
            obtain ⟨hmono, evs, htrace, hown⟩ := StartPeer_tracked_mono _ c1 p o.startErr r hsp
            refine ⟨?_, Event.NewPeer cfg :: Event.StartPeer p :: evs, ?_, ?_⟩
            · intro a ha
              apply hmono a
              simp only [Client.emit]
              exact tracked_insert _ _ _ _ ha
            · rw [htrace]; simp [Client.emit]
            · intro q hq
              simp only [List.mem_cons] at hq
              rcases hq with hq | hq | hq
              · cases hq
              · cases hq
              · rw [hown q hq]; simp
  | peerMsgDelPeer =>
    simp only [hty] at h
    cases hcfg : msg.cfg with
    | none => simp [onDelPeer, hcfg] at h
    | some cfg =>
      cases hl : psLookup c.ps cfg.Address with
      | none => simp only [onDelPeer, hcfg, hl, Option.some.injEq] at h; exact hnoop h.symm
      | some e0 =>
        obtain ⟨p, _, hc1⟩ := onDelPeer_closes c c1 msg cfg e0 hcfg hl h
        subst hc1
        exact ⟨fun a ha => tracked_setStatus _ _ _ _ ha,
          [Event.ClosePeer p, Event.Wait p], rfl, by simp⟩
  | peerMsgErrPeer =>
    simp only [hty, onErrPeer] at h
    cases herr : msg.err with
    | none => simp only [herr, Option.some.injEq] at h; exact hnoop h.symm
    | some err =>
      cases hp : msg.peer with
      | none => simp only [herr, hp, Option.some.injEq] at h; exact hnoop h.symm
      | some p =>
        simp only [herr, hp] at h
        cases hl : psLookup c.ps p.Address with
        | none => simp only [hl, Option.some.injEq] at h; exact hnoop h.symm
        | some e0 =>
          simp only [hl] at h
          by_cases hst : e0.status = .peerStatClosed
          · simp only [hst, if_true, Option.some.injEq] at h; exact hnoop h.symm
          · simp only [hst, if_false] at h
            cases hsp : StartPeer c (some p) o.startErr with
            | none => simp [hsp] at h
            | some res =>
              rcases res with ⟨c2, r⟩
              obtain ⟨hmono, evs, htrace, hown⟩ := StartPeer_tracked_mono c c2 p o.startErr r hsp
              cases r with
              | none =>
                simp only [hsp, Option.some.injEq] at h
                subst h
                refine ⟨hmono, Event.StartPeer p :: evs, htrace, ?_⟩
                intro q hq
                simp only [List.mem_cons] at hq
                rcases hq with hq | hq
                · cases hq
                · rw [hown q hq]; simp
              | some e1 =>
                simp only [hsp, Option.some.injEq] at h
                subst h
                refine ⟨hmono, Event.StartPeer p :: (evs ++ [Event.Sleep 3]), ?_, ?_⟩
                · simp [Client.emit, htrace]
                · intro q hq
                  simp only [List.mem_cons, List.mem_append] at hq
                  rcases hq with hq | hq | hq | hq
                  · cases hq
                  · rw [hown q hq]; simp
                  · cases hq
                  · simp at hq

theorem peerMngRun_tracked_mono (osf : Client → peerMsg → Option Client)
    (msgs : List (peerMsg × Oracle)) :
    ∀ (c c1 : Client), (∀ m ∈ msgs, m.1.msgTyp ≠ .peerSyncFinished) →
      peerMngRun osf c msgs = some c1 →
      ∀ a, psLookup c.ps a ≠ none → psLookup c1.ps a ≠ none := by
  induction msgs with
  | nil =>
    intro c c1 _ hrun a ha
    simp only [peerMngRun, Option.some.injEq] at hrun
    subst hrun; exact ha
  | cons m rest ih =>
    intro c c1 hall hrun a ha
    rcases m with ⟨msg, o⟩
    simp only [peerMngRun] at hrun
    cases hstep : peerMngDispatch osf c msg o with
    | none => simp [hstep] at hrun
    | some c2 =>
      simp only [hstep] at hrun
      have h2 := (peerMngDispatch_tracked_mono osf c c2 msg o (hall (msg, o) (by simp)) hstep).1
        a ha
      exact ih c2 c1 (fun m hmem => hall m (by simp [hmem])) hrun a h2

/-- While the entry of address A is `Closed`, no run of lifecycle messages calls
`StartPeer` or `Start` for a peer at address A. -/
theorem peerMngRun_never_connects (osf : Client → peerMsg → Option Client)
    (msgs : List (peerMsg × Oracle)) :
    ∀ (c c1 : Client) (A : String) (e : peerStatus), psLookup c.ps A = some e →
      e.status = .peerStatClosed →
      (∀ m ∈ msgs, m.1.msgTyp ≠ .peerSyncFinished ∧ ctorKeepsAddress m.1 m.2 = true) →
      peerMngRun osf c msgs = some c1 →
      ∃ evs, c1.trace = c.trace ++ evs ∧
        ∀ q, (Event.StartPeer q ∈ evs ∨ Event.Start q ∈ evs) → q.Address ≠ A := by
  induction msgs with
  | nil =>
    intro c c1 A e _ _ _ hrun
    simp only [peerMngRun, Option.some.injEq] at hrun
    subst hrun
    exact ⟨[], by simp, by simp⟩
  | cons m rest ih =>
    intro c c1 A e hl hst hall hrun
    rcases m with ⟨msg, o⟩
    simp only [peerMngRun] at hrun
    cases hstep : peerMngDispatch osf c msg o with
    | none => simp [hstep] at hrun
    | some c2 =>
      simp only [hstep] at hrun
      have hm := hall (msg, o) (by simp)
      obtain ⟨hkeep, evs1, htr1, hguard⟩ := peerMngDispatch_closed osf c c2 msg o hm.1 hm.2 hstep
      obtain ⟨_, evs1b, htr1b, hstart⟩ := peerMngDispatch_tracked_mono osf c c2 msg o hm.1 hstep
      have hsame : evs1 = evs1b := List.append_cancel_left (htr1.symm.trans htr1b)
      subst hsame
      obtain ⟨evs2, htr2, hrest⟩ := ih c2 c1 A e (hkeep A e hl hst) hst
        (fun m hmem => hall m (by simp [hmem])) hrun
      have hclosedA : psClosed c.ps A = true := (psClosed_eq_true _ _).mpr ⟨e, hl, hst⟩
      have hsp : ∀ q, Event.StartPeer q ∈ evs1 → q.Address ≠ A := by
        intro q hq hEq
        have := (hguard q hq).1
        rw [hEq, hclosedA] at this
        exact absurd this (by simp)
      refine ⟨evs1 ++ evs2, by rw [htr2, htr1, List.append_assoc], ?_⟩
      intro q hq
      simp only [List.mem_append] at hq
      rcases hq with (hq | hq) | (hq | hq)
      · exact hsp q hq
      · exact hrest q (Or.inl hq)
      · exact hsp q (hstart q hq)
      · exact hrest q (Or.inr hq)

/-- C20: no NewPeer, DelPeer or ErrPeer message removes an entry from the peer
table. After `onDelPeer` for a tracked address A the entry of A is `Closed`, and
after any further such messages (a constructed peer carrying the address of its
configuration) it is still that `Closed` entry, every `onNewPeer` for A returns
the client unchanged, and neither `StartPeer` nor `Start` has been called for a
peer at address A. -/
theorem deleted_address_never_reconnects (osf : Client → peerMsg → Option Client)
    (c : Client) :
    (∀ (msgs : List (peerMsg × Oracle)) (c1 : Client),
      (∀ m ∈ msgs, m.1.msgTyp ≠ .peerSyncFinished) → peerMngRun osf c msgs = some c1 →
      ∀ a, psLookup c.ps a ≠ none → psLookup c1.ps a ≠ none) ∧
    (∀ (del : peerMsg) (cfg : PeerCfg) (e : peerStatus) (q : Peer),
      del.cfg = some cfg → psLookup c.ps cfg.Address = some e → e.peer = some q →
      ∃ c1, onDelPeer c del = some c1 ∧
        psLookup c1.ps cfg.Address =
          some { peer := e.peer, status := .peerStatClosed, cfg := e.cfg } ∧
        ∀ (msgs : List (peerMsg × Oracle)) (c2 : Client),
          (∀ m ∈ msgs, m.1.msgTyp ≠ .peerSyncFinished ∧ ctorKeepsAddress m.1 m.2 = true) →
          peerMngRun osf c1 msgs = some c2 →
          psLookup c2.ps cfg.Address =
            some { peer := e.peer, status := .peerStatClosed, cfg := e.cfg } ∧
          (∀ (msg : peerMsg) (cfg2 : PeerCfg) (np : Option Peer × Option Error)
            (se : Option Error), msg.cfg = some cfg2 → cfg2.Address = cfg.Address →
            onNewPeer c2 msg np se = some c2) ∧
          ∃ evs, c2.trace = c1.trace ++ evs ∧
            ∀ p, (Event.StartPeer p ∈ evs ∨ Event.Start p ∈ evs) →
              p.Address ≠ cfg.Address) := by
  refine ⟨?_, ?_⟩
  · intro msgs c1 hall hrun
    exact peerMngRun_tracked_mono osf msgs c c1 hall hrun
  · intro del cfg e q hcfg hl hq
    have hl1 : psLookup ((({ c with ps := psSetStatus c.ps cfg.Address .peerStatClosed } :
        Client).emit (Event.ClosePeer q)).emit (Event.Wait q)).ps cfg.Address =
        some { peer := e.peer, status := .peerStatClosed, cfg := e.cfg } := by
      simp [Client.emit, psLookup_setStatus, hl]
    refine ⟨(({ c with ps := psSetStatus c.ps cfg.Address .peerStatClosed } : Client).emit
        (Event.ClosePeer q)).emit (Event.Wait q), ?_, hl1, ?_⟩
    · simp [onDelPeer, hcfg, hl, hq]
    · intro msgs c2 hall hrun
      have hl2 := peerMngRun_closed osf msgs _ c2 hall hrun cfg.Address _ hl1 rfl
      refine ⟨hl2, ?_, ?_⟩
      · intro msg cfg2 np se hcfg2 haddr
        simp [onNewPeer, hcfg2, haddr, hl2]
      · exact peerMngRun_never_connects osf msgs _ c2 cfg.Address _ hl1 rfl hall hrun

/-- Witness for C20: delete b:2, then NewPeer for b:2, a stale error of b:2 and a
reconnect of a:1; only a:1 is started and b:2 stays `Closed`. -/
theorem deleted_address_never_reconnects_witness :
    (∃ c1 c2, onDelPeer threePeers (Client.DelPeerByAddressMsg "b:2") = some c1 ∧
      peerMngRun (fun c _ => some c) c1
        [(Client.NewPeerMsg (some ⟨"b:2"⟩), ⟨(some (mkPeer 7 "b:2"), none), none⟩),
         (⟨.peerMsgErrPeer, some (mkPeer 2 "b:2"), none, some Error.EOF⟩, ⟨(none, none), none⟩),
         (⟨.peerMsgErrPeer, some (mkPeer 1 "a:1"), none, some Error.EOF⟩, ⟨(none, none), none⟩)] =
        some c2 ∧
      c2.ps = [mkEntry (mkPeer 1 "a:1") .peerStatNormal,
        mkEntry (mkPeer 2 "b:2") .peerStatClosed, mkEntry (mkPeer 3 "c:3") .peerStatInit] ∧
      c2.trace = c1.trace ++ [Event.StartPeer (mkPeer 1 "a:1"), Event.Start (mkPeer 1 "a:1"),
        Event.startSyncIrr (mkPeer 1 "a:1")]) ∧
    ∃ c1, onDelPeer threePeers (Client.DelPeerByAddressMsg "b:2") = some c1 ∧
      psLookup c1.ps "b:2" =
        some { peer := some (mkPeer 2 "b:2"), status := .peerStatClosed, cfg := some ⟨"b:2"⟩ } ∧
      ∀ (msgs : List (peerMsg × Oracle)) (c2 : Client),
        (∀ m ∈ msgs, m.1.msgTyp ≠ .peerSyncFinished ∧ ctorKeepsAddress m.1 m.2 = true) →
        peerMngRun (fun c _ => some c) c1 msgs = some c2 →
        psLookup c2.ps "b:2" =
          some { peer := some (mkPeer 2 "b:2"), status := .peerStatClosed,
                 cfg := some ⟨"b:2"⟩ } ∧
        (∀ (msg : peerMsg) (cfg2 : PeerCfg) (np : Option Peer × Option Error)
          (se : Option Error), msg.cfg = some cfg2 → cfg2.Address = "b:2" →
          onNewPeer c2 msg np se = some c2) ∧
        ∃ evs, c2.trace = c1.trace ++ evs ∧
          ∀ p, (Event.StartPeer p ∈ evs ∨ Event.Start p ∈ evs) → p.Address ≠ "b:2" :=
  ⟨⟨_, _, rfl, rfl, by decide, by decide⟩,
   (deleted_address_never_reconnects (fun c _ => some c) threePeers).2
     (Client.DelPeerByAddressMsg "b:2") ⟨"b:2"⟩
     { peer := some (mkPeer 2 "b:2"), status := .peerStatInit, cfg := some ⟨"b:2"⟩ }
     (mkPeer 2 "b:2") rfl rfl rfl⟩

end P2P
